import Mathlib

/-!
Verification of the `exa` container core (`exa/core/container.py`).

The Python `Container` keeps its data objects as dynamically attached
attributes (`vars(self)`), an insertion-ordered mapping from attribute name to
value.  We embed that mapping as an association list `List (String × α)` with
Python-`dict` insert-or-replace semantics, and embed the attached values as an
inductive type `Val` covering the kinds the container's code dispatches on:
numpy arrays, pandas series/frames (incl. the sparse variants), the "special"
built-ins (str, int, float, complex, dict, list, tuple), `None`, bound
methods, and otherwise-unclassified Python objects (whose `shape`/`size`/len
attribute profile is carried explicitly, for `Container.info`).

Numeric payloads are carried as `Int`/opaque `Nat` payloads; the container
never computes with them, it only classifies, stores and compares them.
The interpreter-level memory estimate (`sys.getsizeof`) is not modelled; no
claim depends on it.
-/

/-! ### Ordered mappings (Python `dict` on string keys) -/

/-- Keys of an association list, in order. -/
def dkeys {β : Type} (d : List (String × β)) : List String :=
  d.map Prod.fst

/-- `dlook k d` is Python `d[k]`/`d.get(k)`: value at the key, if present. -/
def dlook {β : Type} (k : String) : List (String × β) → Option β
  | [] => none
  | kv :: rest => if kv.1 = k then some kv.2 else dlook k rest

/-- `dinsert d k v` is Python `d[k] = v`: replace in place if the key exists,
else append at the end (insertion order). -/
def dinsert {β : Type} (d : List (String × β)) (k : String) (v : β) :
    List (String × β) :=
  if (dkeys d).contains k then
    d.map (fun kv => if kv.1 = k then (k, v) else kv)
  else
    d ++ [(k, v)]

/-! ### Values attachable to a container -/

/-- Profile of a Python object's `size` attribute, as `Container.info` probes
it: a non-callable attribute, or a callable whose result does / does not
support `.to_dict()` (rendering to the given string when it does). -/
inductive SizeAttr : Type
  | notCallable : SizeAttr
  | callableToDict : String → SizeAttr
  | callableNoToDict : SizeAttr
deriving DecidableEq, Repr

/-- A value attached to a container, by the kinds `container.py` dispatches
on.  `obj` is any other Python object, carrying the `shape` / `size` / `len`
attribute profile that `Container.info` inspects.  `method` stands for a bound
method of the class (reachable through `getattr`, never stored in `vars`). -/
inductive Val : Type
  | npArray : List Int → Val
  | series : List Int → Val
  | frame : Option String → List String → List (List Int) → Val
  | sparseSeries : List Int → Val
  | sparseFrame : Option String → List String → List (List Int) → Val
  | str : String → Val
  | int : Int → Val
  | float : Nat → Val
  | complex : Nat → Nat → Val
  | dict : List (String × Int) → Val
  | list : List Int → Val
  | tuple : List Int → Val
  | pyNone : Val
  | method : String → Val
  | obj : Option String → Option SizeAttr → Option Nat → Val
deriving DecidableEq, Repr

/-- `isinstance(data, np.ndarray)`. -/
def isNumpy : Val → Bool
  | .npArray _ => true
  | _ => false

/-- `isinstance(data, (pd.Series, pd.DataFrame, pd.SparseSeries,
pd.SparseDataFrame))`. -/
def isPandas : Val → Bool
  | .series _ => true
  | .frame _ _ _ => true
  | .sparseSeries _ => true
  | .sparseFrame _ _ _ => true
  | _ => false

/-- `isinstance(data, (str, int, float, complex, dict, list, tuple))`. -/
def isSpecialKind : Val → Bool
  | .str _ => true
  | .int _ => true
  | .float _ => true
  | .complex _ _ => true
  | .dict _ => true
  | .list _ => true
  | .tuple _ => true
  | _ => false

/-- `isinstance(item, pd.DataFrame)` — the sparse frame class subclasses
`pd.DataFrame`, so both frame kinds qualify. -/
def isFrame : Val → Bool
  | .frame _ _ _ => true
  | .sparseFrame _ _ _ => true
  | _ => false

/-! ### The container class surface -/

/-- The two `Typed` fields declared on `Container` (`default_prefix`, `meta`).
Modelled from the spec: the typed-attribute mechanism (`exa.typed`, not under
`src/`) turns each declared field into a class property whose value is stored
on the instance under the underscore-prefixed name. -/
def classProps : List String := ["default_prefix", "meta"]

/-- Names of the methods defined on the `Container` class (visible to
`hasattr`/`getattr` besides the instance attributes and the properties). -/
def classMethods : List String :=
  ["info", "network", "memory_usage", "to_hdf", "from_hdf", "_network",
   "_items"]

/-- Modelled from the spec: `_spec_name` (from `exa/core/data.py`, not under
`src/`) — the name of the sentinel record hosting scalar/special attributes
in the tabular store; its documented default is `__exa_storer__`. -/
def specName : String := "__exa_storer__"

/-- Modelled from the spec: `_forbidden` (from `exa/core/data.py`, not under
`src/`) — the small denylist of internal bookkeeping attribute names skipped
when reading the sentinel record's attributes back. -/
def forbiddenNames : List String :=
  ["CLASS", "TITLE", "VERSION", "pandas_type", "pandas_version"]

/-- A container instance: its `vars(self)` mapping. -/
structure Container : Type where
  vars : List (String × Val)
deriving DecidableEq, Repr

/-- `setattr(self, name, value)`: assigning to a `Typed` property stores the
value under the underscore-prefixed key (modelled from the spec); any other
name is stored as given. -/
def Container.setattr (c : Container) (name : String) (v : Val) : Container :=
  if classProps.contains name then ⟨dinsert c.vars ("_" ++ name) v⟩
  else ⟨dinsert c.vars name v⟩

/-- `key.startswith("_")`, written on the character list so that it evaluates
by kernel reduction. -/
def underscored (key : String) : Bool :=
  key.data.head? = some '_'

/-- The public name `Container._items` reports for a stored key: keys starting
with the underscore marker whose unmarked name is a class property are
reported under the unmarked name; every other key is reported unchanged. -/
def itemName (key : String) : String :=
  if underscored key && classProps.contains (key.drop 1) then key.drop 1
  else key

/-- `Container._items()`: the (public name, value) pairs for every attribute
in `vars(self)`, in insertion order. -/
def Container.items (c : Container) : List (String × Val) :=
  c.vars.map (fun kv => (itemName kv.1, kv.2))

/-- `Container.__init__(**kwargs)`: pop `default_prefix` (default `"obj_"`)
and `meta` (default `None`), then `setattr` every remaining keyword in order.
(Positional arguments, which receive uuid-generated names, are not modelled;
no claim constructs a container from positional arguments.) -/
def Container.init (kwargs : List (String × Val)) : Container :=
  let dp := (dlook "default_prefix" kwargs).getD (.str "obj_")
  let mv := (dlook "meta" kwargs).getD .pyNone
  let rest := kwargs.filter (fun kv =>
    kv.1 ≠ "default_prefix" && kv.1 ≠ "meta")
  rest.foldl (fun c kv => c.setattr kv.1 kv.2)
    ((Container.setattr ⟨[]⟩ "default_prefix" dp).setattr "meta" mv)

example :
    (Container.init [("x", Val.list [1, 2, 3])]).items =
      [("default_prefix", Val.str "obj_"), ("meta", Val.pyNone),
       ("x", Val.list [1, 2, 3])] := by
  decide

/-! ### `Container.info` — the introspection summary

`info` builds one row per registry item.  Its shape column comes from the
statement chain

```
if hasattr(item, "shape"): shape = str(item.shape)
elif hasattr(item, "size"):
    if callable(item.size): shape = str(item.size().to_dict())
else:
    try: shape = str(len(item))
    except (TypeError, AttributeError): shape = "nan"
```

Note that when `item.size` exists but is not callable, no branch assigns
`shape`: the Python local keeps the value assigned by a previous loop
iteration (or is unbound, raising `UnboundLocalError`, a `NameError`).  The
embedding threads that local through the loop as an `Option String`.
The per-row MiB size (`sys.getsizeof`) is interpreter-level and not
modelled; the claims do not touch it. -/

/-- Python exceptions distinguished by the embedded code paths. -/
inductive PyErr : Type
  | typeError : PyErr
  | attributeError : PyErr
  | nameError : PyErr
deriving DecidableEq, Repr

/-- `str(item.shape)` when the value has a `shape` attribute. -/
def shapeAttrOf : Val → Option String
  | .npArray xs => some ("(" ++ toString xs.length ++ ",)")
  | .series xs => some ("(" ++ toString xs.length ++ ",)")
  | .sparseSeries xs => some ("(" ++ toString xs.length ++ ",)")
  | .frame _ cols rows =>
      some ("(" ++ toString rows.length ++ ", " ++ toString cols.length ++ ")")
  | .sparseFrame _ cols rows =>
      some ("(" ++ toString rows.length ++ ", " ++ toString cols.length ++ ")")
  | .obj sh _ _ => sh
  | _ => none

/-- The value's `size` attribute profile, if it has one (numpy/pandas objects
expose a non-callable `size`; it is shadowed by their `shape`). -/
def sizeAttrOf : Val → Option SizeAttr
  | .npArray _ => some .notCallable
  | .series _ => some .notCallable
  | .sparseSeries _ => some .notCallable
  | .frame _ _ _ => some .notCallable
  | .sparseFrame _ _ _ => some .notCallable
  | .obj _ sz _ => sz
  | _ => none

/-- `len(item)`, or the `TypeError` Python raises for unsized values. -/
def lenOf : Val → Except PyErr Nat
  | .npArray xs => .ok xs.length
  | .series xs => .ok xs.length
  | .sparseSeries xs => .ok xs.length
  | .frame _ _ rows => .ok rows.length
  | .sparseFrame _ _ rows => .ok rows.length
  | .str s => .ok s.length
  | .dict es => .ok es.length
  | .list xs => .ok xs.length
  | .tuple xs => .ok xs.length
  | .obj _ _ (some n) => .ok n
  | .obj _ _ none => .error .typeError
  | .int _ => .error .typeError
  | .float _ => .error .typeError
  | .complex _ _ => .error .typeError
  | .pyNone => .error .typeError
  | .method _ => .error .typeError

/-- `item.__class__.__name__`. -/
def typeName : Val → String
  | .npArray _ => "ndarray"
  | .series _ => "Series"
  | .frame _ _ _ => "DataFrame"
  | .sparseSeries _ => "SparseSeries"
  | .sparseFrame _ _ _ => "SparseDataFrame"
  | .str _ => "str"
  | .int _ => "int"
  | .float _ => "float"
  | .complex _ _ => "complex"
  | .dict _ => "dict"
  | .list _ => "list"
  | .tuple _ => "tuple"
  | .pyNone => "NoneType"
  | .method _ => "method"
  | .obj _ _ _ => "object"

/-- One pass of `info`'s shape chain for a single item.  `prev` is the state
of the Python local `shape` before the iteration; the result is its state
after, or the exception that escapes the loop body.  The only guarded branch
is the `len` fallback; a failing `to_dict()` raises `AttributeError` through
`info`, and a non-callable `size` leaves the local untouched. -/
def shapeStep (prev : Option String) (v : Val) : Except PyErr (Option String) :=
  match shapeAttrOf v with
  | some s => .ok (some s)
  | none =>
    match sizeAttrOf v with
    | some (.callableToDict s) => .ok (some s)
    | some .callableNoToDict => .error .attributeError
    | some .notCallable => .ok prev
    | none =>
      match lenOf v with
      | .ok n => .ok (some (toString n))
      | .error e =>
        if e = .typeError || e = .attributeError then .ok (some "nan")
        else .error e

/-- The row-building loop of `Container.info`: for each item a row
`(name, type name, shape)`, reading the shape local as left by `shapeStep`;
reading it while still unbound is Python's `UnboundLocalError`
(a `NameError`). -/
def infoFold : List (String × Val) → Option String →
    Except PyErr (List (String × String × String))
  | [], _ => .ok []
  | kv :: rest, prev =>
    match shapeStep prev kv.2 with
    | .error e => .error e
    | .ok none => .error .nameError
    | .ok (some s) =>
      match infoFold rest (some s) with
      | .error e => .error e
      | .ok rows => .ok ((kv.1, typeName kv.2, s) :: rows)

/-- Lexicographic strict order on character lists (Python's string `<`). -/
def lexLtB : List Char → List Char → Bool
  | [], [] => false
  | [], _ :: _ => true
  | _ :: _, [] => false
  | a :: as, b :: bs => if a < b then true else if a = b then lexLtB as bs else false

/-- Python string `a < b` (lexicographic by code point). -/
def strLtB (a b : String) : Bool :=
  lexLtB a.data b.data

/-- Python string `a <= b`. -/
def strLeB (a b : String) : Bool :=
  !(strLtB b a)

/-- Row order `a ≤ b` by attribute name (the final `sort_index()`). -/
def rowLe (a b : String × String × String) : Prop :=
  strLeB a.1 b.1 = true

instance : DecidableRel rowLe := fun a b =>
  inferInstanceAs (Decidable (strLeB a.1 b.1 = true))

/-- `Container.info()`: rows indexed by item name, sorted by name (the size
column is not modelled).  An exception escaping the loop aborts the call. -/
def Container.info (c : Container) :
    Except PyErr (List (String × String × String)) :=
  (infoFold c.items none).map (List.insertionSort rowLe)

/-! ### `Container._network` — relationship inference -/

/-- `sorted((key0, key1))` for two keys. -/
def pairOf (a b : String) : String × String :=
  if strLeB a b then (a, b) else (b, a)

/-- The edge condition of `_network`: one frame's index name (when not
`None`) occurs among the other frame's column labels, in either direction. -/
def relatedB (n0 n1 : Option String × List String) : Bool :=
  (match n0.1 with
   | some s => n1.2.contains s
   | none => false) ||
  (match n1.1 with
   | some s => n0.2.contains s
   | none => false)

/-- The `nodes` dict of `_network`: for every `pd.DataFrame` item,
`nodes[name] = (item.index.name, item.columns.values)`. -/
def frameNodes (c : Container) : List (String × (Option String × List String)) :=
  c.items.foldl
    (fun nd kv =>
      match kv.2 with
      | .frame i cols _ => dinsert nd kv.1 (i, cols)
      | .sparseFrame i cols _ => dinsert nd kv.1 (i, cols)
      | _ => nd)
    []

/-- The double loop of `_network`: for each ordered pair of distinct node
keys satisfying the edge condition, append the sorted pair unless already
present. -/
def buildEdges (nodes : List (String × (Option String × List String))) :
    List (String × String) :=
  nodes.foldl
    (fun es p0 =>
      nodes.foldl
        (fun es p1 =>
          if p0.1 = p1.1 then es
          else if relatedB p0.2 p1.2 then
            if es.contains (pairOf p0.1 p1.1) then es
            else es ++ [pairOf p0.1 p1.1]
          else es)
        es)
    []

/-- String order as a `Prop` relation, for sorting name lists. -/
def strLe (a b : String) : Prop := strLeB a b = true

instance : DecidableRel strLe := fun a b =>
  inferInstanceAs (Decidable (strLeB a b = true))

/-- Lexicographic order on sorted edge pairs (Python's `sorted` on the
2-element lists). -/
def pairLe (a b : String × String) : Prop :=
  strLtB a.1 b.1 = true ∨ (a.1 = b.1 ∧ strLeB a.2 b.2 = true)

instance : DecidableRel pairLe := fun a b =>
  inferInstanceAs
    (Decidable (strLtB a.1 b.1 = true ∨ (a.1 = b.1 ∧ strLeB a.2 b.2 = true)))

/-- `Container._network()`: the sorted node-name list and the sorted edge
list. -/
def Container.network (c : Container) :
    List String × List (String × String) :=
  let nodes := frameNodes c
  (List.insertionSort strLe (dkeys nodes),
   List.insertionSort pairLe (buildEdges nodes))

example :
    (Container.init
      [("a2", Val.frame (some "x") ["u"] []),
       ("a1", Val.frame (some "y") ["x"] [])]).network =
      (["a1", "a2"], [("a1", "a2")]) := by
  decide

/-! ### The HDF archive (`to_hdf` / `from_hdf`)

One path holds two stores: the pytables store (named carray nodes, written
from numpy arrays) and the pandas `HDFStore` (named records plus the
attributes attached to the sentinel record's storer).  The storage engines
themselves are external collaborators; the archive is embedded as the three
name-to-value mappings the container code reads and writes through them.
`walk_nodes()` on the array store is embedded as walking the carray records
(each of which carries a `name`); the engine's internal bookkeeping nodes are
part of the engines' on-disk layout and out of scope. -/

/-- The on-disk archive at one path. -/
structure Archive : Type where
  arrayNodes : List (String × Val)
  records : List (String × Val)
  specialAttrs : List (String × Val)
deriving DecidableEq, Repr

/-- A path with no archive yet. -/
def emptyArchive : Archive :=
  ⟨[], [], []⟩

/-- Result of `to_hdf`: the archive left on disk and the warnings issued. -/
structure SaveResult : Type where
  archive : Archive
  warnings : List String
deriving DecidableEq, Repr

/-- The classification pass of `to_hdf`: fill `numpy_save`, `pandas_save`
and `special_save`, warning (when `warn`) about any non-`None` item of an
unrecognized kind.  Warnings are recorded by item name. -/
def classifyItems (its : List (String × Val)) (warn : Bool) :
    List (String × Val) × List (String × Val) × List (String × Val) ×
      List String :=
  its.foldl
    (fun acc kv =>
      if isNumpy kv.2 then (dinsert acc.1 kv.1 kv.2, acc.2.1, acc.2.2.1, acc.2.2.2)
      else if isPandas kv.2 then (acc.1, dinsert acc.2.1 kv.1 kv.2, acc.2.2.1, acc.2.2.2)
      else if isSpecialKind kv.2 then (acc.1, acc.2.1, dinsert acc.2.2.1 kv.1 kv.2, acc.2.2.2)
      else if kv.2 ≠ Val.pyNone && warn then (acc.1, acc.2.1, acc.2.2.1, acc.2.2.2 ++ [kv.1])
      else acc)
    ([], [], [], [])

/-- `Container.to_hdf(path, ..., warn=warn)` against the archive currently at
the path: classify the registry, write each numpy item as a carray node,
ensure the sentinel record exists (an empty series), attach each special item
as an attribute of the sentinel's storer, and store each pandas item as a
named record.  The `mode`/`append`/compression/checksum arguments configure
the external stores (row-append semantics and on-disk encoding) and are not
modelled: under both branches of the append test the record is stored under
the item's name. -/
def Container.to_hdf (c : Container) (warn : Bool) (a : Archive) : SaveResult :=
  let cls := classifyItems c.items warn
  let arr := cls.1.foldl (fun d kv => d ++ [kv]) a.arrayNodes
  let recs0 :=
    if (dkeys a.records).contains specName then a.records
    else dinsert a.records specName (Val.series [])
  let attrs := cls.2.2.1.foldl (fun d kv => dinsert d kv.1 kv.2) a.specialAttrs
  let recs := cls.2.1.foldl (fun d kv => dinsert d kv.1 kv.2) recs0
  ⟨⟨arr, recs, attrs⟩, cls.2.2.2⟩

/-- `Container.from_hdf(path)`: seed the keyword map with the sentinel
storer's attributes (skipping the forbidden names) when the sentinel record
is present, overlay every record of the pandas store (the sentinel record
included), add every carray node whose name is not already a key, and hand
the keyword map to the constructor. -/
def Container.from_hdf (a : Archive) : Container :=
  let kw0 : List (String × Val) :=
    if (dkeys a.records).contains specName then
      a.specialAttrs.foldl
        (fun kw kv =>
          if forbiddenNames.contains kv.1 then kw else dinsert kw kv.1 kv.2)
        []
    else []
  let kw1 := a.records.foldl (fun kw kv => dinsert kw kv.1 kv.2) kw0
  let kw2 := a.arrayNodes.foldl
    (fun kw kv =>
      if (dkeys kw).contains kv.1 then kw else dinsert kw kv.1 kv.2)
    kw1
  Container.init kw2

/-! ### The collection protocol (`__contains__`, `__eq__`, `__delitem__`) -/

/-- `hasattr(c, n)`: an instance attribute, a settable class property whose
backing storage is present (the `Typed` getter raises `AttributeError` when
its underscore-prefixed storage is unset; modelled from the spec), or a
method of the class. -/
def Container.hasattrB (c : Container) (n : String) : Bool :=
  (dkeys c.vars).contains n ||
  (classProps.contains n && (dkeys c.vars).contains ("_" ++ n)) ||
  classMethods.contains n

/-- `getattr(c, n)` for a name with `hasattr(c, n)`: the stored attribute,
the property's backing storage, or the bound method object. -/
def Container.getattrD (c : Container) (n : String) : Val :=
  match dlook n c.vars with
  | some v => v
  | none =>
    if classProps.contains n then (dlook ("_" ++ n) c.vars).getD .pyNone
    else if classMethods.contains n then .method n
    else .pyNone

/-- `Container.__contains__`: `True` when the attribute exists (the method
falls off the end and returns `None`, which is falsy, otherwise). -/
def Container.containsB (c : Container) (n : String) : Bool :=
  c.hasattrB n

/-- `np.all(x == y)` for two attached values.  Element-wise equality of two
same-kind values collapses to structural equality of the payloads; values of
different kinds (a bound method against a scalar, say) compare unequal. -/
def allEqB (x y : Val) : Bool :=
  x == y

/-- `Container.__eq__`: `False` as soon as some registry item of `c` whose
name is an attribute of `d` is not all-elements-equal to `d`'s value, `True`
otherwise. -/
def Container.eqB (c d : Container) : Bool :=
  c.items.all (fun kv => !(d.hasattrB kv.1 && !allEqB (d.getattrD kv.1) kv.2))

/-- `Container.__delitem__`: when the key is in `vars(self)`, delete that
attribute; otherwise do nothing.  (A key in `vars` is a plain stored
attribute — the class has no property under a stored key — so `delattr`
removes the `vars` entry.) -/
def Container.delitem (c : Container) (k : String) : Container :=
  if (dkeys c.vars).contains k then ⟨c.vars.filter (fun kv => kv.1 ≠ k)⟩
  else c

example :
    (Container.init
      [("x", Val.list [1, 2, 3]), ("arr", Val.npArray [4, 5]),
       ("df", Val.frame (some "a") ["b"] [[1]])]).to_hdf true emptyArchive =
      ⟨⟨[("arr", Val.npArray [4, 5])],
        [(specName, Val.series []), ("df", Val.frame (some "a") ["b"] [[1]])],
        [("default_prefix", Val.str "obj_"), ("x", Val.list [1, 2, 3])]⟩,
       []⟩ := by
  decide

example :
    (Container.from_hdf
      ((Container.init
        [("x", Val.list [1, 2, 3]), ("arr", Val.npArray [4, 5]),
         ("df", Val.frame (some "a") ["b"] [[1]])]).to_hdf true
          emptyArchive).archive).items =
      [("default_prefix", Val.str "obj_"), ("meta", Val.pyNone),
       ("x", Val.list [1, 2, 3]), (specName, Val.series []),
       ("df", Val.frame (some "a") ["b"] [[1]]),
       ("arr", Val.npArray [4, 5])] := by
  decide

/-! ## Theorems

First some bookkeeping lemmas about the ordered-mapping embedding, then the
claims. -/

theorem dkeys_append {β : Type} (d1 d2 : List (String × β)) :
    dkeys (d1 ++ d2) = dkeys d1 ++ dkeys d2 :=
  List.map_append _ _ _

theorem mem_dkeys {β : Type} {d : List (String × β)} {n : String} :
    n ∈ dkeys d ↔ ∃ v, (n, v) ∈ d := by
  constructor
  · intro h
    rcases List.mem_map.mp h with ⟨⟨k, v⟩, hkv, he⟩
    subst he
    exact ⟨v, hkv⟩
  · rintro ⟨v, hv⟩
    exact List.mem_map.mpr ⟨(n, v), hv, rfl⟩

theorem mem_dkeys_of_mem {β : Type} {d : List (String × β)} {n : String}
    {v : β} (h : (n, v) ∈ d) : n ∈ dkeys d :=
  mem_dkeys.mpr ⟨v, h⟩

theorem dcontains_iff {β : Type} {d : List (String × β)} {n : String} :
    (dkeys d).contains n = true ↔ n ∈ dkeys d :=
  List.elem_iff

theorem dinsert_of_not_mem {β : Type} {d : List (String × β)} {k : String}
    (h : k ∉ dkeys d) (v : β) : dinsert d k v = d ++ [(k, v)] := by
  unfold dinsert
  rw [if_neg (fun hc => h (dcontains_iff.mp hc))]

theorem dlook_eq_none {β : Type} {d : List (String × β)} {n : String}
    (h : n ∉ dkeys d) : dlook n d = none := by
  induction d with
  | nil => rfl
  | cons kv rest ih =>
    have h1 : kv.1 ≠ n := by
      intro he
      exact h (by simp [dkeys, he])
    have h2 : n ∉ dkeys rest := fun hm => h (by simp [dkeys] at hm ⊢; right; exact hm)
    simp [dlook, h1, ih h2]

theorem mem_of_dlook_some {β : Type} {d : List (String × β)} {n : String}
    {v : β} (h : dlook n d = some v) : (n, v) ∈ d := by
  induction d with
  | nil => simp [dlook] at h
  | cons kv rest ih =>
    rcases kv with ⟨k, w⟩
    by_cases he : k = n
    · subst he
      simp [dlook] at h
      subst h
      exact List.mem_cons_self _ _
    · simp [dlook, he] at h
      exact List.mem_cons_of_mem _ (ih h)

theorem dlook_isSome_iff {β : Type} {d : List (String × β)} {n : String} :
    (dlook n d).isSome = true ↔ n ∈ dkeys d := by
  induction d with
  | nil => simp [dlook, dkeys]
  | cons kv rest ih =>
    rcases kv with ⟨k, w⟩
    by_cases he : k = n
    · subst he
      simp [dlook, dkeys]
    · have h2 : ¬ n = k := fun hh => he hh.symm
      simp [dlook, dkeys, he, h2] at ih ⊢
      exact ih

theorem dlook_of_mem_nodup {β : Type} {d : List (String × β)} {n : String}
    {v : β} (hd : (dkeys d).Nodup) (h : (n, v) ∈ d) : dlook n d = some v := by
  induction d with
  | nil => simp at h
  | cons kv rest ih =>
    rcases kv with ⟨k, w⟩
    have hcons := List.nodup_cons.mp hd
    rcases List.mem_cons.mp h with h1 | h1
    · rcases Prod.mk.injEq .. ▸ h1 with ⟨e1, e2⟩
      simp [dlook, e1.symm, e2.symm]
    · have hk : k ≠ n := by
        intro he
        subst he
        exact hcons.1 (mem_dkeys_of_mem h1)
      simp [dlook, hk, ih hcons.2 h1]

theorem dlook_append_right {β : Type} {d1 d2 : List (String × β)} {n : String}
    (h : n ∉ dkeys d1) : dlook n (d1 ++ d2) = dlook n d2 := by
  induction d1 with
  | nil => rfl
  | cons kv rest ih =>
    have h1 : kv.1 ≠ n := fun he => h (by simp [dkeys, he])
    have h2 : n ∉ dkeys rest := fun hm => h (by simp [dkeys] at hm ⊢; right; exact hm)
    simp [dlook, h1, ih h2]

theorem dlook_append_left {β : Type} {d1 d2 : List (String × β)} {n : String}
    (h : n ∈ dkeys d1) : dlook n (d1 ++ d2) = dlook n d1 := by
  induction d1 with
  | nil => simp [dkeys] at h
  | cons kv rest ih =>
    by_cases he : kv.1 = n
    · simp [dlook, he]
    · have h2 : n ∈ dkeys rest := by
        simp [dkeys] at h
        rcases h with h | h
        · exact absurd h.symm he
        · simpa [dkeys] using h
      simp [dlook, he, ih h2]

theorem dlook_map_replace {β : Type} (d : List (String × β)) {k m : String}
    (h : m ≠ k) (v : β) :
    dlook m (d.map (fun kv => if kv.1 = k then (k, v) else kv)) =
      dlook m d := by
  induction d with
  | nil => rfl
  | cons kv rest ih =>
    by_cases he : kv.1 = k
    · have hkm : ¬ k = m := fun hh => h hh.symm
      have hm : kv.1 ≠ m := by rw [he]; exact hkm
      simp [dlook, he, hkm, hm, ih]
    · by_cases hm : kv.1 = m
      · simp [dlook, he, hm, h, ih]
      · simp [dlook, he, hm, ih]

theorem dlook_dinsert_self {β : Type} (d : List (String × β)) (k : String)
    (v : β) : dlook k (dinsert d k v) = some v := by
  unfold dinsert
  by_cases hc : (dkeys d).contains k = true
  · rw [if_pos hc]
    have hm : k ∈ dkeys d := dcontains_iff.mp hc
    clear hc
    induction d with
    | nil => simp [dkeys] at hm
    | cons kv rest ih =>
      by_cases he : kv.1 = k
      · simp [dlook, he]
      · have h2 : k ∈ dkeys rest := by
          simp [dkeys] at hm
          rcases hm with hm | hm
          · exact absurd hm.symm he
          · simpa [dkeys] using hm
        simp [dlook, he, ih h2]
  · rw [if_neg hc]
    have hm : k ∉ dkeys d := fun h => hc (dcontains_iff.mpr h)
    rw [dlook_append_right hm]
    simp [dlook]

theorem dlook_dinsert_other {β : Type} (d : List (String × β)) {k m : String}
    (h : m ≠ k) (v : β) : dlook m (dinsert d k v) = dlook m d := by
  unfold dinsert
  by_cases hc : (dkeys d).contains k = true
  · rw [if_pos hc]
    exact dlook_map_replace d h v
  · rw [if_neg hc]
    by_cases hm : m ∈ dkeys d
    · exact dlook_append_left hm
    · rw [dlook_append_right hm, dlook_eq_none hm]
      have : ¬ k = m := fun hh => h hh.symm
      simp [dlook, this]

theorem dkeys_map_replace {β : Type} (d : List (String × β)) (k : String)
    (v : β) :
    dkeys (d.map (fun kv => if kv.1 = k then (k, v) else kv)) = dkeys d := by
  unfold dkeys
  rw [List.map_map]
  apply List.map_congr_left
  intro kv _
  by_cases he : kv.1 = k
  · simp [he]
  · simp [he]

theorem mem_dkeys_dinsert {β : Type} {d : List (String × β)} {k m : String}
    {v : β} : m ∈ dkeys (dinsert d k v) ↔ m ∈ dkeys d ∨ m = k := by
  unfold dinsert
  by_cases hc : (dkeys d).contains k = true
  · rw [if_pos hc, dkeys_map_replace]
    have hk : k ∈ dkeys d := dcontains_iff.mp hc
    constructor
    · exact Or.inl
    · rintro (h | h)
      · exact h
      · subst h
        exact hk
  · rw [if_neg hc, dkeys_append]
    simp [dkeys]

theorem foldl_push {β : Type} (l d0 : List (String × β)) :
    l.foldl (fun d kv => d ++ [kv]) d0 = d0 ++ l := by
  induction l generalizing d0 with
  | nil => simp
  | cons kv rest ih => simp [ih]

theorem foldl_dinsert_fresh {β : Type} (l : List (String × β)) :
    ∀ d0 : List (String × β), (dkeys l).Nodup →
    (∀ n ∈ dkeys l, n ∉ dkeys d0) →
    l.foldl (fun d kv => dinsert d kv.1 kv.2) d0 = d0 ++ l := by
  induction l with
  | nil => intro d0 _ _; simp
  | cons kv rest ih =>
    intro d0 hnd hdis
    have hhead : kv.1 ∉ dkeys d0 := hdis kv.1 (List.mem_cons_self _ _)
    have hcons := List.nodup_cons.mp hnd
    rw [List.foldl_cons, dinsert_of_not_mem hhead]
    rw [ih (d0 ++ [kv]) hcons.2]
    · simp
    · intro n hn
      rw [dkeys_append]
      intro hmem
      rcases List.mem_append.mp hmem with h | h
      · exact hdis n (List.mem_cons_of_mem _ hn) h
      · have : n = kv.1 := List.mem_singleton.mp h
        subst this
        exact hcons.1 hn

theorem foldl_dinsert_skip_fresh {β : Type} (l : List (String × β)) :
    ∀ d0 : List (String × β), (dkeys l).Nodup →
    (∀ n ∈ dkeys l, n ∉ dkeys d0) →
    l.foldl
      (fun kw kv =>
        if (dkeys kw).contains kv.1 then kw else dinsert kw kv.1 kv.2) d0 =
      d0 ++ l := by
  induction l with
  | nil => intro d0 _ _; simp
  | cons kv rest ih =>
    intro d0 hnd hdis
    have hhead : kv.1 ∉ dkeys d0 := hdis kv.1 (List.mem_cons_self _ _)
    have hcons := List.nodup_cons.mp hnd
    rw [List.foldl_cons, if_neg (fun hc => hhead (dcontains_iff.mp hc)),
      dinsert_of_not_mem hhead]
    rw [ih (d0 ++ [kv]) hcons.2]
    · simp
    · intro n hn
      rw [dkeys_append]
      intro hmem
      rcases List.mem_append.mp hmem with h | h
      · exact hdis n (List.mem_cons_of_mem _ hn) h
      · have : n = kv.1 := List.mem_singleton.mp h
        subst this
        exact hcons.1 hn

theorem foldl_dinsert_forbidden_fresh (l : List (String × Val)) :
    ∀ d0 : List (String × Val), (dkeys l).Nodup →
    (∀ n ∈ dkeys l, n ∉ dkeys d0) →
    (∀ n ∈ dkeys l, ¬ forbiddenNames.contains n = true) →
    l.foldl
      (fun kw kv =>
        if forbiddenNames.contains kv.1 then kw else dinsert kw kv.1 kv.2) d0 =
      d0 ++ l := by
  induction l with
  | nil => intro d0 _ _ _; simp
  | cons kv rest ih =>
    intro d0 hnd hdis hforb
    have hhead : kv.1 ∉ dkeys d0 := hdis kv.1 (List.mem_cons_self _ _)
    have hcons := List.nodup_cons.mp hnd
    rw [List.foldl_cons, if_neg (hforb kv.1 (List.mem_cons_self _ _)),
      dinsert_of_not_mem hhead]
    rw [ih (d0 ++ [kv]) hcons.2]
    · simp
    · intro n hn
      rw [dkeys_append]
      intro hmem
      rcases List.mem_append.mp hmem with h | h
      · exact hdis n (List.mem_cons_of_mem _ hn) h
      · have : n = kv.1 := List.mem_singleton.mp h
        subst this
        exact hcons.1 hn
    · intro n hn
      exact hforb n (List.mem_cons_of_mem _ hn)

theorem dlook_foldl_dinsert_not_mem {β : Type} {l : List (String × β)}
    {n : String} (h : n ∉ dkeys l) (kw : List (String × β)) :
    dlook n (l.foldl (fun d kv => dinsert d kv.1 kv.2) kw) = dlook n kw := by
  induction l generalizing kw with
  | nil => rfl
  | cons kv rest ih =>
    have h1 : n ≠ kv.1 := fun he => h (he ▸ List.mem_cons_self _ _)
    have h2 : n ∉ dkeys rest := fun hm => h (List.mem_cons_of_mem _ hm)
    rw [List.foldl_cons, ih h2, dlook_dinsert_other _ h1]

theorem dlook_foldl_dinsert_of_mem {β : Type} {l : List (String × β)}
    {n : String} {v : β} (hnd : (dkeys l).Nodup) (h : (n, v) ∈ l)
    (kw : List (String × β)) :
    dlook n (l.foldl (fun d kv => dinsert d kv.1 kv.2) kw) = some v := by
  induction l generalizing kw with
  | nil => simp at h
  | cons kv rest ih =>
    have hcons := List.nodup_cons.mp hnd
    rcases List.mem_cons.mp h with h1 | h1
    · rcases Prod.mk.injEq .. ▸ h1 with ⟨e1, e2⟩
      subst e1
      subst e2
      rw [List.foldl_cons,
        dlook_foldl_dinsert_not_mem hcons.1, dlook_dinsert_self]
    · exact List.foldl_cons .. ▸ ih hcons.2 h1 _

theorem dlook_foldl_forbidden_not_mem {l : List (String × Val)}
    {n : String} (h : n ∉ dkeys l) (kw : List (String × Val)) :
    dlook n (l.foldl
      (fun kw kv =>
        if forbiddenNames.contains kv.1 then kw
        else dinsert kw kv.1 kv.2) kw) = dlook n kw := by
  induction l generalizing kw with
  | nil => rfl
  | cons kv rest ih =>
    have h1 : n ≠ kv.1 := fun he => h (he ▸ List.mem_cons_self _ _)
    have h2 : n ∉ dkeys rest := fun hm => h (List.mem_cons_of_mem _ hm)
    rw [List.foldl_cons, ih h2]
    by_cases hc : forbiddenNames.contains kv.1 = true
    · exact congrArg (dlook n) (if_pos hc)
    · exact (congrArg (dlook n) (if_neg hc)).trans
        (dlook_dinsert_other kw h1 kv.2)

theorem dlook_foldl_forbidden_of_mem {l : List (String × Val)}
    {n : String} {v : Val} (hnd : (dkeys l).Nodup) (h : (n, v) ∈ l)
    (hnf : ¬ forbiddenNames.contains n = true) (kw : List (String × Val)) :
    dlook n (l.foldl
      (fun kw kv =>
        if forbiddenNames.contains kv.1 then kw
        else dinsert kw kv.1 kv.2) kw) = some v := by
  induction l generalizing kw with
  | nil => simp at h
  | cons kv rest ih =>
    have hcons := List.nodup_cons.mp hnd
    rcases List.mem_cons.mp h with h1 | h1
    · have e1 : kv.1 = n := by rw [← h1]
      have e : (if forbiddenNames.contains kv.1 then kw
          else dinsert kw kv.1 kv.2) = dinsert kw n v := by
        rw [show kv = (n, v) from h1.symm]
        exact if_neg hnf
      have hnm : n ∉ dkeys rest := by
        rw [← e1]
        exact hcons.1
      rw [List.foldl_cons, e, dlook_foldl_forbidden_not_mem hnm,
        dlook_dinsert_self]
    · exact List.foldl_cons .. ▸ ih hcons.2 h1 _

theorem dlook_foldl_skip_preserved {β : Type} {l : List (String × β)}
    {n : String} {v : β} {kw : List (String × β)} (h : dlook n kw = some v) :
    dlook n
      (l.foldl
        (fun kw kv =>
          if (dkeys kw).contains kv.1 then kw else dinsert kw kv.1 kv.2) kw) =
      some v := by
  induction l generalizing kw with
  | nil => exact h
  | cons kv rest ih =>
    rw [List.foldl_cons]
    by_cases hc : (dkeys kw).contains kv.1 = true
    · rw [if_pos hc]
      exact ih h
    · rw [if_neg hc]
      have hne : n ≠ kv.1 := by
        intro he
        subst he
        exact hc (dcontains_iff.mpr (dlook_isSome_iff.mp (by simp [h])))
      exact ih (by rw [dlook_dinsert_other _ hne, h])

theorem mem_classProps_iff {n : String} :
    classProps.contains n = true ↔ n = "default_prefix" ∨ n = "meta" := by
  rw [show (classProps.contains n = true) ↔ n ∈ classProps from List.elem_iff]
  simp [classProps]

theorem mem_forbidden_iff {n : String} :
    forbiddenNames.contains n = true ↔ n ∈ forbiddenNames := by
  exact List.elem_iff

theorem not_isPandas_of_isNumpy {v : Val} (h : isNumpy v = true) :
    isPandas v = false := by
  cases v <;> simp_all [isNumpy, isPandas]

theorem not_isSpecialKind_of_isNumpy {v : Val} (h : isNumpy v = true) :
    isSpecialKind v = false := by
  cases v <;> simp_all [isNumpy, isSpecialKind]

theorem not_isSpecialKind_of_isPandas {v : Val} (h : isPandas v = true) :
    isSpecialKind v = false := by
  cases v <;> simp_all [isPandas, isSpecialKind]

theorem classify_go (warn : Bool) (its : List (String × Val)) :
    ∀ ns ps ss : List (String × Val), ∀ ws : List String,
    (dkeys its).Nodup →
    (∀ n ∈ dkeys its, n ∉ dkeys ns) →
    (∀ n ∈ dkeys its, n ∉ dkeys ps) →
    (∀ n ∈ dkeys its, n ∉ dkeys ss) →
    its.foldl
      (fun acc kv =>
        if isNumpy kv.2 then
          (dinsert acc.1 kv.1 kv.2, acc.2.1, acc.2.2.1, acc.2.2.2)
        else if isPandas kv.2 then
          (acc.1, dinsert acc.2.1 kv.1 kv.2, acc.2.2.1, acc.2.2.2)
        else if isSpecialKind kv.2 then
          (acc.1, acc.2.1, dinsert acc.2.2.1 kv.1 kv.2, acc.2.2.2)
        else if kv.2 ≠ Val.pyNone && warn then
          (acc.1, acc.2.1, acc.2.2.1, acc.2.2.2 ++ [kv.1])
        else acc)
      (ns, ps, ss, ws) =
      (ns ++ its.filter (fun kv => isNumpy kv.2),
       ps ++ its.filter (fun kv => isPandas kv.2),
       ss ++ its.filter (fun kv => isSpecialKind kv.2),
       ws ++ (its.filter (fun kv =>
         !isNumpy kv.2 && !isPandas kv.2 && !isSpecialKind kv.2 &&
           (kv.2 ≠ Val.pyNone && warn))).map Prod.fst) := by
  induction its with
  | nil => intro ns ps ss ws _ _ _ _; simp
  | cons kv rest ih =>
    intro ns ps ss ws hnd hns hps hss
    have hcons := List.nodup_cons.mp hnd
    have hfr : ∀ d0 : List (String × Val),
        (∀ n ∈ dkeys (kv :: rest), n ∉ dkeys d0) →
        ∀ n ∈ dkeys rest, n ∉ dkeys (d0 ++ [kv]) := by
      intro d0 hd n hn hmem
      rw [dkeys_append] at hmem
      rcases List.mem_append.mp hmem with h | h
      · exact hd n (List.mem_cons_of_mem _ hn) h
      · have : n = kv.1 := List.mem_singleton.mp h
        subst this
        exact hcons.1 hn
    have htl : ∀ d0 : List (String × Val),
        (∀ n ∈ dkeys (kv :: rest), n ∉ dkeys d0) →
        ∀ n ∈ dkeys rest, n ∉ dkeys d0 := by
      intro d0 hd n hn
      exact hd n (List.mem_cons_of_mem _ hn)
    rw [List.foldl_cons]
    by_cases h1 : isNumpy kv.2 = true
    · have h2 := not_isPandas_of_isNumpy h1
      have h3 := not_isSpecialKind_of_isNumpy h1
      rw [if_pos h1,
        dinsert_of_not_mem (hns kv.1 (List.mem_cons_self _ _)),
        ih (ns ++ [kv]) ps ss ws hcons.2 (hfr ns hns) (htl ps hps)
          (htl ss hss)]
      simp [List.filter_cons, h1, h2, h3]
    · rw [if_neg h1]
      by_cases h2 : isPandas kv.2 = true
      · have h3 := not_isSpecialKind_of_isPandas h2
        rw [if_pos h2,
          dinsert_of_not_mem (hps kv.1 (List.mem_cons_self _ _)),
          ih ns (ps ++ [kv]) ss ws hcons.2 (htl ns hns) (hfr ps hps)
            (htl ss hss)]
        simp [List.filter_cons, h1, h2, h3]
      · rw [if_neg h2]
        by_cases h3 : isSpecialKind kv.2 = true
        · rw [if_pos h3,
            dinsert_of_not_mem (hss kv.1 (List.mem_cons_self _ _)),
            ih ns ps (ss ++ [kv]) ws hcons.2 (htl ns hns) (htl ps hps)
              (hfr ss hss)]
          simp [List.filter_cons, h1, h2, h3]
        · rw [if_neg h3]
          by_cases h4 : (kv.2 ≠ Val.pyNone && warn) = true
          · rw [if_pos h4,
              ih ns ps ss (ws ++ [kv.1]) hcons.2 (htl ns hns) (htl ps hps)
                (htl ss hss)]
            simp only [Bool.and_eq_true, decide_eq_true_eq] at h4
            simp [List.filter_cons, h1, h2, h3, h4.1, h4.2]
          · rw [if_neg h4,
              ih ns ps ss ws hcons.2 (htl ns hns) (htl ps hps) (htl ss hss)]
            have h5 : ¬ (¬ kv.2 = Val.pyNone ∧ warn = true) := by
              intro hpw
              exact h4 (by simp [hpw.1, hpw.2])
            simp [List.filter_cons, h1, h2, h3, h5]

theorem classifyItems_eq (its : List (String × Val)) (warn : Bool)
    (hnd : (dkeys its).Nodup) :
    classifyItems its warn =
      (its.filter (fun kv => isNumpy kv.2),
       its.filter (fun kv => isPandas kv.2),
       its.filter (fun kv => isSpecialKind kv.2),
       (its.filter (fun kv =>
         !isNumpy kv.2 && !isPandas kv.2 && !isSpecialKind kv.2 &&
           (kv.2 ≠ Val.pyNone && warn))).map Prod.fst) := by
  unfold classifyItems
  rw [classify_go warn its [] [] [] [] hnd (by intro n _ h; simp [dkeys] at h)
    (by intro n _ h; simp [dkeys] at h) (by intro n _ h; simp [dkeys] at h)]
  simp

theorem setattr_plain (c : Container) {n : String}
    (h : ¬ classProps.contains n = true) (v : Val) :
    c.setattr n v = ⟨dinsert c.vars n v⟩ := by
  unfold Container.setattr
  rw [if_neg h]

theorem setattr_foldl (l : List (String × Val)) :
    ∀ c0 : Container, (dkeys l).Nodup →
    (∀ n ∈ dkeys l, ¬ classProps.contains n = true) →
    (∀ n ∈ dkeys l, n ∉ dkeys c0.vars) →
    l.foldl (fun c kv => c.setattr kv.1 kv.2) c0 = ⟨c0.vars ++ l⟩ := by
  induction l with
  | nil => intro c0 _ _ _; simp
  | cons kv rest ih =>
    intro c0 hnd hcp hfresh
    have hcons := List.nodup_cons.mp hnd
    rw [List.foldl_cons,
      setattr_plain c0 (hcp kv.1 (List.mem_cons_self _ _)) kv.2,
      dinsert_of_not_mem (hfresh kv.1 (List.mem_cons_self _ _))]
    rw [ih ⟨c0.vars ++ [kv]⟩ hcons.2
      (fun n hn => hcp n (List.mem_cons_of_mem _ hn)) ?fr]
    · simp
    case fr =>
      intro n hn hmem
      rw [show (Container.mk (c0.vars ++ [kv])).vars = c0.vars ++ [kv] from rfl,
        dkeys_append] at hmem
      rcases List.mem_append.mp hmem with h | h
      · exact hfresh n (List.mem_cons_of_mem _ hn) h
      · have : n = kv.1 := List.mem_singleton.mp h
        subst this
        exact hcons.1 hn

theorem itemName_id_of_not_underscored {k : String}
    (h : underscored k = false) : itemName k = k := by
  unfold itemName
  simp [h]

theorem init_vars (kwargs : List (String × Val))
    (hnd : (dkeys kwargs).Nodup)
    (h1 : "_default_prefix" ∉ dkeys kwargs)
    (h2 : "_meta" ∉ dkeys kwargs) :
    (Container.init kwargs).vars =
      ("_default_prefix", (dlook "default_prefix" kwargs).getD (.str "obj_")) ::
        ("_meta", (dlook "meta" kwargs).getD .pyNone) ::
        kwargs.filter (fun kv => kv.1 ≠ "default_prefix" && kv.1 ≠ "meta") := by
  have e0 : Container.init kwargs =
      (kwargs.filter (fun kv =>
        kv.1 ≠ "default_prefix" && kv.1 ≠ "meta")).foldl
        (fun c kv => c.setattr kv.1 kv.2)
        ⟨[("_default_prefix", (dlook "default_prefix" kwargs).getD (.str "obj_")),
          ("_meta", (dlook "meta" kwargs).getD .pyNone)]⟩ := rfl
  rw [e0]
  have hsub : List.Sublist
      (dkeys (kwargs.filter (fun kv =>
        kv.1 ≠ "default_prefix" && kv.1 ≠ "meta"))) (dkeys kwargs) :=
    (List.filter_sublist kwargs).map Prod.fst
  rw [setattr_foldl _ _ (hnd.sublist hsub) ?cp ?fr]
  · rfl
  case cp =>
    intro n hn hc
    rcases mem_dkeys.mp hn with ⟨v, hv⟩
    have := List.of_mem_filter hv
    simp at this
    rcases mem_classProps_iff.mp hc with h | h
    · exact this.1 h
    · exact this.2 h
  case fr =>
    intro n hn hmem
    simp [dkeys] at hmem
    rcases hmem with h | h
    · exact h1 (h ▸ hsub.mem hn)
    · exact h2 (h ▸ hsub.mem hn)

theorem not_underscored_mem {kwargs : List (String × Val)}
    (hund : ∀ n ∈ dkeys kwargs, underscored n = false) :
    "_default_prefix" ∉ dkeys kwargs ∧ "_meta" ∉ dkeys kwargs := by
  constructor
  · intro h
    have := hund _ h
    simp [underscored] at this
  · intro h
    have := hund _ h
    simp [underscored] at this

theorem items_init_clean (kwargs : List (String × Val))
    (hnd : (dkeys kwargs).Nodup)
    (hres : ∀ n ∈ dkeys kwargs, ¬ classProps.contains n = true)
    (hund : ∀ n ∈ dkeys kwargs, underscored n = false) :
    (Container.init kwargs).items =
      ("default_prefix", Val.str "obj_") :: ("meta", Val.pyNone) :: kwargs := by
  have hu := not_underscored_mem hund
  have hdp : dlook "default_prefix" kwargs = none := by
    apply dlook_eq_none
    intro h
    exact hres _ h (mem_classProps_iff.mpr (Or.inl rfl))
  have hmv : dlook "meta" kwargs = none := by
    apply dlook_eq_none
    intro h
    exact hres _ h (mem_classProps_iff.mpr (Or.inr rfl))
  have hfl : kwargs.filter (fun kv =>
      kv.1 ≠ "default_prefix" && kv.1 ≠ "meta") = kwargs := by
    apply List.filter_eq_self.mpr
    intro kv hkv
    have h := hres kv.1 (mem_dkeys_of_mem hkv)
    rw [mem_classProps_iff] at h
    simp at h ⊢
    exact h
  unfold Container.items
  rw [init_vars kwargs hnd hu.1 hu.2, hdp, hmv, hfl]
  rw [List.map_cons, List.map_cons]
  have i1 : itemName "_default_prefix" = "default_prefix" := by decide
  have i2 : itemName "_meta" = "meta" := by decide
  rw [i1, i2]
  have hmap : kwargs.map (fun kv => (itemName kv.1, kv.2)) = kwargs := by
    calc kwargs.map (fun kv => (itemName kv.1, kv.2))
        = kwargs.map id := List.map_congr_left (fun kv hkv => by
            rw [itemName_id_of_not_underscored
              (hund kv.1 (mem_dkeys_of_mem hkv))]
            rfl)
      _ = kwargs := List.map_id _
  rw [hmap]
  rfl

theorem to_hdf_empty (c : Container) (warn : Bool)
    (hnd : (dkeys c.items).Nodup)
    (hspec : specName ∉ dkeys c.items) :
    c.to_hdf warn emptyArchive =
      ⟨⟨c.items.filter (fun kv => isNumpy kv.2),
        (specName, Val.series []) :: c.items.filter (fun kv => isPandas kv.2),
        c.items.filter (fun kv => isSpecialKind kv.2)⟩,
       (c.items.filter (fun kv =>
         !isNumpy kv.2 && !isPandas kv.2 && !isSpecialKind kv.2 &&
           (kv.2 ≠ Val.pyNone && warn))).map Prod.fst⟩ := by
  have e0 : c.to_hdf warn emptyArchive =
      ⟨⟨(classifyItems c.items warn).1.foldl (fun d kv => d ++ [kv]) [],
        (classifyItems c.items warn).2.1.foldl
          (fun d kv => dinsert d kv.1 kv.2) [(specName, Val.series [])],
        (classifyItems c.items warn).2.2.1.foldl
          (fun d kv => dinsert d kv.1 kv.2) []⟩,
       (classifyItems c.items warn).2.2.2⟩ := rfl
  rw [e0, classifyItems_eq _ _ hnd]
  have hsubPd : List.Sublist
      (dkeys (c.items.filter (fun kv => isPandas kv.2))) (dkeys c.items) :=
    (List.filter_sublist c.items).map Prod.fst
  have hsubSp : List.Sublist
      (dkeys (c.items.filter (fun kv => isSpecialKind kv.2)))
      (dkeys c.items) :=
    (List.filter_sublist c.items).map Prod.fst
  rw [show ((c.items.filter (fun kv => isNumpy kv.2),
      c.items.filter (fun kv => isPandas kv.2),
      c.items.filter (fun kv => isSpecialKind kv.2),
      (c.items.filter (fun kv =>
        !isNumpy kv.2 && !isPandas kv.2 && !isSpecialKind kv.2 &&
          (kv.2 ≠ Val.pyNone && warn))).map Prod.fst).1 : List (String × Val)) =
    c.items.filter (fun kv => isNumpy kv.2) from rfl,
    foldl_push]
  rw [foldl_dinsert_fresh _ _ (hnd.sublist hsubPd) ?pd]
  rw [foldl_dinsert_fresh _ _ (hnd.sublist hsubSp) ?sp]
  · simp
  case pd =>
    intro n hn hmem
    have : n = specName := by
      simpa [dkeys] using hmem
    subst this
    exact hspec (hsubPd.mem hn)
  case sp =>
    intro n _ hmem
    simp [dkeys] at hmem

theorem from_hdf_clean (A P S : List (String × Val)) (e : Val)
    (hndS : (dkeys S).Nodup) (hndP : (dkeys P).Nodup)
    (hndA : (dkeys A).Nodup)
    (hspecS : specName ∉ dkeys S) (hspecP : specName ∉ dkeys P)
    (hspecA : specName ∉ dkeys A)
    (hSP : ∀ n ∈ dkeys P, n ∉ dkeys S)
    (hSA : ∀ n ∈ dkeys A, n ∉ dkeys S)
    (hPA : ∀ n ∈ dkeys A, n ∉ dkeys P)
    (hforb : ∀ n ∈ dkeys S, ¬ forbiddenNames.contains n = true) :
    Container.from_hdf ⟨A, (specName, e) :: P, S⟩ =
      Container.init ((S ++ (specName, e) :: P) ++ A) := by
  have e0 : Container.from_hdf ⟨A, (specName, e) :: P, S⟩ =
      Container.init
        (A.foldl
          (fun kw kv =>
            if (dkeys kw).contains kv.1 then kw else dinsert kw kv.1 kv.2)
          (((specName, e) :: P).foldl (fun kw kv => dinsert kw kv.1 kv.2)
            (S.foldl
              (fun kw kv =>
                if forbiddenNames.contains kv.1 then kw
                else dinsert kw kv.1 kv.2) []))) := rfl
  rw [e0,
    foldl_dinsert_forbidden_fresh S [] hndS
      (by intro n _ hm; simp [dkeys] at hm) hforb,
    List.nil_append]
  rw [foldl_dinsert_fresh ((specName, e) :: P) S ?nd ?dis]
  case nd =>
    refine List.nodup_cons.mpr ⟨?_, hndP⟩
    exact hspecP
  case dis =>
    intro n hn
    rcases List.mem_cons.mp hn with h | h
    · subst h
      exact hspecS
    · exact hSP n h
  rw [foldl_dinsert_skip_fresh A (S ++ (specName, e) :: P) hndA ?dis2]
  case dis2 =>
    intro n hn hmem
    rw [dkeys_append] at hmem
    rcases List.mem_append.mp hmem with h | h
    · exact hSA n hn h
    · rcases List.mem_cons.mp h with h2 | h2
      · subst h2
        exact hspecA hn
      · exact hPA n hn h2

theorem vals_unique {β : Type} {l : List (String × β)}
    (hnd : (dkeys l).Nodup) {n : String} {v w : β}
    (h1 : (n, v) ∈ l) (h2 : (n, w) ∈ l) : v = w := by
  have e1 := dlook_of_mem_nodup hnd h1
  have e2 := dlook_of_mem_nodup hnd h2
  rw [e1] at e2
  exact Option.some.inj e2

theorem keys_filter_sub {β : Type} {l : List (String × β)}
    {p : (String × β) → Bool} {n : String} (h : n ∈ dkeys (l.filter p)) :
    n ∈ dkeys l :=
  ((List.filter_sublist l).map Prod.fst).mem h

theorem filter_keys_disjoint {l : List (String × Val)}
    (hnd : (dkeys l).Nodup) {p q : (String × Val) → Bool}
    (hexcl : ∀ kv, kv ∈ l → p kv = true → q kv = false) :
    ∀ n ∈ dkeys (l.filter p), n ∉ dkeys (l.filter q) := by
  intro n hp hq
  rcases mem_dkeys.mp hp with ⟨v, hv⟩
  rcases mem_dkeys.mp hq with ⟨w, hw⟩
  have hvl := List.mem_of_mem_filter hv
  have hwl := List.mem_of_mem_filter hw
  have hvw : v = w := vals_unique hnd hvl hwl
  subst hvw
  have h1 := List.of_mem_filter hv
  have h2 := List.of_mem_filter hw
  rw [hexcl _ hvl h1] at h2
  exact Bool.false_ne_true h2

theorem specName_not_mem_of_und {kwargs : List (String × Val)}
    (hund : ∀ n ∈ dkeys kwargs, underscored n = false) :
    specName ∉ dkeys kwargs := by
  intro h
  have h1 := hund _ h
  have h2 : underscored specName = true := by decide
  rw [h1] at h2
  exact Bool.false_ne_true h2

theorem dp_not_mem_of_res {kwargs : List (String × Val)}
    (hres : ∀ n ∈ dkeys kwargs, ¬ classProps.contains n = true) :
    "default_prefix" ∉ dkeys kwargs ∧ "meta" ∉ dkeys kwargs := by
  constructor
  · intro h
    exact hres _ h (mem_classProps_iff.mpr (Or.inl rfl))
  · intro h
    exact hres _ h (mem_classProps_iff.mpr (Or.inr rfl))

theorem not_isNumpy_of_isPandas {v : Val} (h : isPandas v = true) :
    isNumpy v = false := by
  cases v <;> simp_all [isNumpy, isPandas]

theorem not_isNumpy_of_isSpecialKind {v : Val} (h : isSpecialKind v = true) :
    isNumpy v = false := by
  cases v <;> simp_all [isNumpy, isSpecialKind]

theorem not_isPandas_of_isSpecialKind {v : Val} (h : isSpecialKind v = true) :
    isPandas v = false := by
  cases v <;> simp_all [isPandas, isSpecialKind]

theorem map_itemName_id {l : List (String × Val)}
    (h : ∀ n ∈ dkeys l, underscored n = false) :
    l.map (fun kv => (itemName kv.1, kv.2)) = l := by
  calc l.map (fun kv => (itemName kv.1, kv.2))
      = l.map id := List.map_congr_left (fun kv hkv => by
          rw [itemName_id_of_not_underscored (h kv.1 (mem_dkeys_of_mem hkv))]
          rfl)
    _ = l := List.map_id _

theorem filter_ne_reserved {l : List (String × Val)}
    (h : ∀ n ∈ dkeys l, n ≠ "default_prefix" ∧ n ≠ "meta") :
    l.filter (fun kv => kv.1 ≠ "default_prefix" && kv.1 ≠ "meta") = l := by
  apply List.filter_eq_self.mpr
  intro kv hkv
  have h2 := h kv.1 (mem_dkeys_of_mem hkv)
  simp [h2.1, h2.2]

theorem init_assembled_items (FS FP FA : List (String × Val))
    (hund2 : ∀ n ∈ dkeys (FS ++ (FP ++ FA)), underscored n = false)
    (hner : ∀ n ∈ dkeys (FS ++ (FP ++ FA)), n ≠ "default_prefix" ∧ n ≠ "meta")
    (hndK : (dkeys (((("default_prefix", Val.str "obj_") :: FS) ++
      (specName, Val.series []) :: FP) ++ FA)).Nodup) :
    (Container.init (((("default_prefix", Val.str "obj_") :: FS) ++
      (specName, Val.series []) :: FP) ++ FA)).items =
      ("default_prefix", Val.str "obj_") :: ("meta", Val.pyNone) ::
        ((FS ++ (specName, Val.series []) :: FP) ++ FA) := by
  have hFS : ∀ n ∈ dkeys FS, underscored n = false ∧
      n ≠ "default_prefix" ∧ n ≠ "meta" := by
    intro n hn
    have hm : n ∈ dkeys (FS ++ (FP ++ FA)) := by
      rw [dkeys_append]
      exact List.mem_append.mpr (Or.inl hn)
    exact ⟨hund2 n hm, hner n hm⟩
  have hFP : ∀ n ∈ dkeys FP, underscored n = false ∧
      n ≠ "default_prefix" ∧ n ≠ "meta" := by
    intro n hn
    have hm : n ∈ dkeys (FS ++ (FP ++ FA)) := by
      rw [dkeys_append, dkeys_append]
      exact List.mem_append.mpr (Or.inr (List.mem_append.mpr (Or.inl hn)))
    exact ⟨hund2 n hm, hner n hm⟩
  have hFA : ∀ n ∈ dkeys FA, underscored n = false ∧
      n ≠ "default_prefix" ∧ n ≠ "meta" := by
    intro n hn
    have hm : n ∈ dkeys (FS ++ (FP ++ FA)) := by
      rw [dkeys_append, dkeys_append]
      exact List.mem_append.mpr (Or.inr (List.mem_append.mpr (Or.inr hn)))
    exact ⟨hund2 n hm, hner n hm⟩
  have hmemK : ∀ m, m ∈ dkeys (((("default_prefix", Val.str "obj_") :: FS) ++
      (specName, Val.series []) :: FP) ++ FA) ↔
      (m = "default_prefix" ∨ m ∈ dkeys FS ∨ m = specName ∨ m ∈ dkeys FP ∨
        m ∈ dkeys FA) := by
    intro m
    rw [dkeys_append, dkeys_append]
    rw [show dkeys (("default_prefix", Val.str "obj_") :: FS) =
      "default_prefix" :: dkeys FS from rfl]
    rw [show dkeys ((specName, Val.series []) :: FP) =
      specName :: dkeys FP from rfl]
    simp only [List.mem_append, List.mem_cons]
    tauto
  have h1K : "_default_prefix" ∉ dkeys (((("default_prefix", Val.str "obj_") ::
      FS) ++ (specName, Val.series []) :: FP) ++ FA) := by
    rw [hmemK]
    rintro (h | h | h | h | h)
    · exact absurd h (by decide)
    · have := (hFS _ h).1
      simp [underscored] at this
    · exact absurd h (by decide)
    · have := (hFP _ h).1
      simp [underscored] at this
    · have := (hFA _ h).1
      simp [underscored] at this
  have h2K : "_meta" ∉ dkeys (((("default_prefix", Val.str "obj_") ::
      FS) ++ (specName, Val.series []) :: FP) ++ FA) := by
    rw [hmemK]
    rintro (h | h | h | h | h)
    · exact absurd h (by decide)
    · have := (hFS _ h).1
      simp [underscored] at this
    · exact absurd h (by decide)
    · have := (hFP _ h).1
      simp [underscored] at this
    · have := (hFA _ h).1
      simp [underscored] at this
  unfold Container.items
  rw [init_vars _ hndK h1K h2K]
  have hdlp : dlook "default_prefix" (((("default_prefix", Val.str "obj_") ::
      FS) ++ (specName, Val.series []) :: FP) ++ FA) =
      some (Val.str "obj_") := by
    rw [dlook_append_left, dlook_append_left]
    · simp [dlook]
    · rw [show dkeys (("default_prefix", Val.str "obj_") :: FS) =
        "default_prefix" :: dkeys FS from rfl]
      exact List.mem_cons_self _ _
    · rw [dkeys_append,
        show dkeys (("default_prefix", Val.str "obj_") :: FS) =
          "default_prefix" :: dkeys FS from rfl]
      exact List.mem_append.mpr (Or.inl (List.mem_cons_self _ _))
  have hdlm : dlook "meta" (((("default_prefix", Val.str "obj_") ::
      FS) ++ (specName, Val.series []) :: FP) ++ FA) = none := by
    apply dlook_eq_none
    rw [hmemK]
    rintro (h | h | h | h | h)
    · exact absurd h (by decide)
    · exact (hFS _ h).2.2 rfl
    · exact absurd h (by decide)
    · exact (hFP _ h).2.2 rfl
    · exact (hFA _ h).2.2 rfl
  rw [hdlp, hdlm]
  have hfilter : (((("default_prefix", Val.str "obj_") :: FS) ++
      (specName, Val.series []) :: FP) ++ FA).filter
        (fun kv => kv.1 ≠ "default_prefix" && kv.1 ≠ "meta") =
      ((FS ++ (specName, Val.series []) :: FP) ++ FA) := by
    rw [List.filter_append, List.filter_append, List.filter_cons,
      List.filter_cons, if_neg (by decide), if_pos (by decide),
      filter_ne_reserved (fun n hn => (hFS n hn).2),
      filter_ne_reserved (fun n hn => (hFP n hn).2),
      filter_ne_reserved (fun n hn => (hFA n hn).2)]
  rw [hfilter]
  rw [List.map_cons, List.map_cons]
  rw [show itemName "_default_prefix" = "default_prefix" from by decide,
    show itemName "_meta" = "meta" from by decide]
  rw [List.map_append, List.map_append, List.map_cons]
  rw [show itemName specName = specName from by decide]
  rw [map_itemName_id (fun n hn => (hFS n hn).1),
    map_itemName_id (fun n hn => (hFP n hn).1),
    map_itemName_id (fun n hn => (hFA n hn).1)]
  rfl

theorem roundtrip_items (kwargs : List (String × Val))
    (hnd : (dkeys kwargs).Nodup)
    (hres : ∀ n ∈ dkeys kwargs, ¬ classProps.contains n = true)
    (hund : ∀ n ∈ dkeys kwargs, underscored n = false)
    (hforb : ∀ n ∈ dkeys kwargs, ¬ forbiddenNames.contains n = true) :
    (Container.from_hdf
      ((Container.init kwargs).to_hdf true emptyArchive).archive).items =
      ("default_prefix", Val.str "obj_") :: ("meta", Val.pyNone) ::
        ((kwargs.filter (fun kv => isSpecialKind kv.2) ++
          (specName, Val.series []) ::
            kwargs.filter (fun kv => isPandas kv.2)) ++
          kwargs.filter (fun kv => isNumpy kv.2)) := by
  have hdpm := dp_not_mem_of_res hres
  have hspecK := specName_not_mem_of_und hund
  have hitems := items_init_clean kwargs hnd hres hund
  have hndI : (dkeys (Container.init kwargs).items).Nodup := by
    rw [hitems]
    refine List.nodup_cons.mpr ⟨?_, List.nodup_cons.mpr ⟨hdpm.2, hnd⟩⟩
    intro hmem
    rcases List.mem_cons.mp hmem with h | h
    · exact absurd h (by decide)
    · exact hdpm.1 h
  have hspecI : specName ∉ dkeys (Container.init kwargs).items := by
    rw [hitems]
    intro hmem
    rcases List.mem_cons.mp hmem with h | h
    · exact absurd h (by decide)
    · rcases List.mem_cons.mp h with h2 | h2
      · exact absurd h2 (by decide)
      · exact hspecK h2
  have hw := to_hdf_empty (Container.init kwargs) true hndI hspecI
  have hfA : (Container.init kwargs).items.filter (fun kv => isNumpy kv.2) =
      kwargs.filter (fun kv => isNumpy kv.2) := by
    rw [hitems]
    simp [List.filter_cons, isNumpy]
  have hfP : (Container.init kwargs).items.filter (fun kv => isPandas kv.2) =
      kwargs.filter (fun kv => isPandas kv.2) := by
    rw [hitems]
    simp [List.filter_cons, isPandas]
  have hfS : (Container.init kwargs).items.filter
      (fun kv => isSpecialKind kv.2) =
      ("default_prefix", Val.str "obj_") ::
        kwargs.filter (fun kv => isSpecialKind kv.2) := by
    rw [hitems]
    simp [List.filter_cons, isSpecialKind]
  rw [hfA, hfP, hfS] at hw
  have hwa : ((Container.init kwargs).to_hdf true emptyArchive).archive =
      ⟨kwargs.filter (fun kv => isNumpy kv.2),
       (specName, Val.series []) :: kwargs.filter (fun kv => isPandas kv.2),
       ("default_prefix", Val.str "obj_") ::
         kwargs.filter (fun kv => isSpecialKind kv.2)⟩ := by
    rw [hw]
  rw [hwa]
  have hsubS : ∀ n ∈ dkeys (kwargs.filter (fun kv => isSpecialKind kv.2)),
      n ∈ dkeys kwargs := fun n h => keys_filter_sub h
  have hsubP : ∀ n ∈ dkeys (kwargs.filter (fun kv => isPandas kv.2)),
      n ∈ dkeys kwargs := fun n h => keys_filter_sub h
  have hsubA : ∀ n ∈ dkeys (kwargs.filter (fun kv => isNumpy kv.2)),
      n ∈ dkeys kwargs := fun n h => keys_filter_sub h
  have hndS2 : (dkeys (kwargs.filter (fun kv => isSpecialKind kv.2))).Nodup :=
    hnd.sublist ((List.filter_sublist kwargs).map Prod.fst)
  have hndP2 : (dkeys (kwargs.filter (fun kv => isPandas kv.2))).Nodup :=
    hnd.sublist ((List.filter_sublist kwargs).map Prod.fst)
  have hndA2 : (dkeys (kwargs.filter (fun kv => isNumpy kv.2))).Nodup :=
    hnd.sublist ((List.filter_sublist kwargs).map Prod.fst)
  have hne_dp : ∀ n ∈ dkeys kwargs, n ≠ "default_prefix" ∧ n ≠ "meta" := by
    intro n hn
    constructor
    · intro he
      exact hdpm.1 (he ▸ hn)
    · intro he
      exact hdpm.2 (he ▸ hn)
  rw [from_hdf_clean _ _ _ _ ?ndS ?ndP ?ndA ?spS ?spP ?spA ?dSP ?dSA ?dPA
    ?forbS]
  case ndS =>
    refine List.nodup_cons.mpr ⟨?_, hndS2⟩
    intro h
    exact hdpm.1 (hsubS _ h)
  case ndP => exact hndP2
  case ndA => exact hndA2
  case spS =>
    intro h
    rcases List.mem_cons.mp h with h2 | h2
    · exact absurd h2 (by decide)
    · exact hspecK (hsubS _ h2)
  case spP =>
    intro h
    exact hspecK (hsubP _ h)
  case spA =>
    intro h
    exact hspecK (hsubA _ h)
  case dSP =>
    intro n hn hmem
    rcases List.mem_cons.mp hmem with h2 | h2
    · exact (hne_dp n (hsubP _ hn)).1 h2
    · exact filter_keys_disjoint hnd
        (fun kv _ h => not_isSpecialKind_of_isPandas h) n hn h2
  case dSA =>
    intro n hn hmem
    rcases List.mem_cons.mp hmem with h2 | h2
    · exact (hne_dp n (hsubA _ hn)).1 h2
    · exact filter_keys_disjoint hnd
        (fun kv _ h => not_isSpecialKind_of_isNumpy h) n hn h2
  case dPA =>
    intro n hn hmem
    exact filter_keys_disjoint hnd
      (fun kv _ h => not_isPandas_of_isNumpy h) n hn hmem
  case forbS =>
    intro n hn
    rcases List.mem_cons.mp hn with h2 | h2
    · subst h2
      decide
    · exact hforb n (hsubS _ h2)
  · refine init_assembled_items _ _ _ ?u2 ?nr ?ndK
    case u2 =>
      intro n hn
      rw [dkeys_append, dkeys_append] at hn
      rcases List.mem_append.mp hn with h | h
      · exact hund n (hsubS _ h)
      · rcases List.mem_append.mp h with h2 | h2
        · exact hund n (hsubP _ h2)
        · exact hund n (hsubA _ h2)
    case nr =>
      intro n hn
      rw [dkeys_append, dkeys_append] at hn
      rcases List.mem_append.mp hn with h | h
      · exact hne_dp n (hsubS _ h)
      · rcases List.mem_append.mp h with h2 | h2
        · exact hne_dp n (hsubP _ h2)
        · exact hne_dp n (hsubA _ h2)
    case ndK =>
      rw [dkeys_append, dkeys_append]
      rw [show dkeys (("default_prefix", Val.str "obj_") ::
        kwargs.filter (fun kv => isSpecialKind kv.2)) =
        "default_prefix" :: dkeys (kwargs.filter
          (fun kv => isSpecialKind kv.2)) from rfl]
      rw [show dkeys ((specName, Val.series []) ::
        kwargs.filter (fun kv => isPandas kv.2)) =
        specName :: dkeys (kwargs.filter (fun kv => isPandas kv.2)) from rfl]
      refine List.nodup_append.mpr ⟨List.nodup_append.mpr
        ⟨?n1, ?n2, ?d12⟩, ?n3, ?d3⟩
      case n1 =>
        refine List.nodup_cons.mpr ⟨?_, hndS2⟩
        intro h
        exact hdpm.1 (hsubS _ h)
      case n2 =>
        refine List.nodup_cons.mpr ⟨?_, hndP2⟩
        intro h
        exact hspecK (hsubP _ h)
      case d12 =>
        intro a ha hb
        rcases List.mem_cons.mp ha with h | h
        · subst h
          rcases List.mem_cons.mp hb with h2 | h2
          · exact absurd h2 (by decide)
          · exact hdpm.1 (hsubP _ h2)
        · rcases List.mem_cons.mp hb with h2 | h2
          · subst h2
            exact hspecK (hsubS _ h)
          · exact filter_keys_disjoint hnd
              (fun kv _ hk => not_isPandas_of_isSpecialKind hk) a h h2
      case n3 => exact hndA2
      case d3 =>
        intro a ha hb
        rcases List.mem_append.mp ha with h | h
        · rcases List.mem_cons.mp h with h2 | h2
          · subst h2
            exact hdpm.1 (hsubA _ hb)
          · exact filter_keys_disjoint hnd
              (fun kv _ hk => not_isNumpy_of_isSpecialKind hk) a h2 hb
        · rcases List.mem_cons.mp h with h2 | h2
          · subst h2
            exact hspecK (hsubA _ hb)
          · exact filter_keys_disjoint hnd
              (fun kv _ hk => not_isNumpy_of_isPandas hk) a h2 hb

theorem dkeys_cons {β : Type} (k : String) (v : β) (l : List (String × β)) :
    dkeys ((k, v) :: l) = k :: dkeys l :=
  rfl

theorem dlook_cons {β : Type} (k m : String) (v : β) (l : List (String × β)) :
    dlook m ((k, v) :: l) = if k = m then some v else dlook m l :=
  rfl

theorem keys_partition (kwargs : List (String × Val))
    (hcls : ∀ kv ∈ kwargs, isNumpy kv.2 = true ∨ isPandas kv.2 = true ∨
      isSpecialKind kv.2 = true) :
    ∀ n, n ∈ dkeys kwargs ↔
      (n ∈ dkeys (kwargs.filter (fun kv => isSpecialKind kv.2)) ∨
       n ∈ dkeys (kwargs.filter (fun kv => isPandas kv.2)) ∨
       n ∈ dkeys (kwargs.filter (fun kv => isNumpy kv.2))) := by
  intro n
  constructor
  · intro h
    rcases mem_dkeys.mp h with ⟨v, hv⟩
    rcases hcls _ hv with h1 | h1 | h1
    · exact Or.inr (Or.inr (mem_dkeys_of_mem (List.mem_filter.mpr ⟨hv, h1⟩)))
    · exact Or.inr (Or.inl (mem_dkeys_of_mem (List.mem_filter.mpr ⟨hv, h1⟩)))
    · exact Or.inl (mem_dkeys_of_mem (List.mem_filter.mpr ⟨hv, h1⟩))
  · rintro (h | h | h) <;> exact keys_filter_sub h

/-- C1 (counterexample): for the concrete container holding the single
special item `x = [1, 2, 3]`, the container read back from the written
archive does not have the same registry names as the original: the sentinel
record's name (`__exa_storer__`) appears as an extra registry key, because
`from_hdf` copies every record of the pandas store — the sentinel record
included — into the constructor keyword map. -/
theorem C1_counterexample :
    ¬ (∀ n, n ∈ dkeys (Container.from_hdf
        ((Container.init [("x", Val.list [1, 2, 3])]).to_hdf true
          emptyArchive).archive).items ↔
        n ∈ dkeys (Container.init [("x", Val.list [1, 2, 3])]).items) := by
  intro h
  have h2 := (h specName).mp (by decide)
  revert h2
  decide

/-- C1 (amended): for a container built from uniquely-named keyword items of
array, tabular and special kinds (names that avoid the reserved property
names, the underscore marker, the sentinel record's name and the forbidden
attribute names), reading back the written archive preserves every original
registry name with an element-wise equal value, and the reconstructed
registry contains exactly one extra name: the sentinel record's name
(holding the empty series put by the writer). -/
theorem C1_roundtrip_amended (kwargs : List (String × Val))
    (hnd : (dkeys kwargs).Nodup)
    (hcls : ∀ kv ∈ kwargs, isNumpy kv.2 = true ∨ isPandas kv.2 = true ∨
      isSpecialKind kv.2 = true)
    (hres : ∀ n ∈ dkeys kwargs, ¬ classProps.contains n = true)
    (hund : ∀ n ∈ dkeys kwargs, underscored n = false)
    (hforb : ∀ n ∈ dkeys kwargs, ¬ forbiddenNames.contains n = true) :
    (∀ n, n ∈ dkeys (Container.from_hdf
        ((Container.init kwargs).to_hdf true emptyArchive).archive).items ↔
      (n ∈ dkeys (Container.init kwargs).items ∨ n = specName)) ∧
    (∀ n, n ∈ dkeys (Container.init kwargs).items →
      dlook n (Container.from_hdf
        ((Container.init kwargs).to_hdf true emptyArchive).archive).items =
        dlook n (Container.init kwargs).items) := by
  have hdpm := dp_not_mem_of_res hres
  have hspecK := specName_not_mem_of_und hund
  have hr := roundtrip_items kwargs hnd hres hund hforb
  have hi := items_init_clean kwargs hnd hres hund
  have hpart := keys_partition kwargs hcls
  have hndS2 : (dkeys (kwargs.filter (fun kv => isSpecialKind kv.2))).Nodup :=
    hnd.sublist ((List.filter_sublist kwargs).map Prod.fst)
  have hndP2 : (dkeys (kwargs.filter (fun kv => isPandas kv.2))).Nodup :=
    hnd.sublist ((List.filter_sublist kwargs).map Prod.fst)
  have hndA2 : (dkeys (kwargs.filter (fun kv => isNumpy kv.2))).Nodup :=
    hnd.sublist ((List.filter_sublist kwargs).map Prod.fst)
  constructor
  · intro n
    rw [hr, hi]
    rw [dkeys_cons, dkeys_cons, dkeys_cons, dkeys_cons, dkeys_append,
      dkeys_append, dkeys_cons]
    simp only [List.mem_cons, List.mem_append]
    rw [hpart n]
    tauto
  · intro n hn
    rw [hi, dkeys_cons, dkeys_cons] at hn
    rw [hr, hi]
    rcases List.mem_cons.mp hn with he | hn2
    · subst he
      simp [dlook_cons]
    · rcases List.mem_cons.mp hn2 with he | hn3
      · subst he
        have hd : ("default_prefix" : String) ≠ "meta" := by decide
        simp [dlook_cons, hd]
      · have hne1 : ("default_prefix" : String) ≠ n := by
          intro he
          exact hdpm.1 (he ▸ hn3)
        have hne2 : ("meta" : String) ≠ n := by
          intro he
          exact hdpm.2 (he ▸ hn3)
        have hnes : specName ≠ n := by
          intro he
          exact hspecK (he ▸ hn3)
        rcases mem_dkeys.mp hn3 with ⟨v, hv⟩
        have hrhs : dlook n kwargs = some v := dlook_of_mem_nodup hnd hv
        have hgoal : dlook n
            ((kwargs.filter (fun kv => isSpecialKind kv.2) ++
              (specName, Val.series []) ::
                kwargs.filter (fun kv => isPandas kv.2)) ++
              kwargs.filter (fun kv => isNumpy kv.2)) = some v := by
          rcases hcls _ hv with h1 | h1 | h1
          · have hnFS : n ∉
                dkeys (kwargs.filter (fun kv => isSpecialKind kv.2)) :=
              filter_keys_disjoint hnd
                (fun kv _ hk => not_isSpecialKind_of_isNumpy hk) n
                (mem_dkeys_of_mem (List.mem_filter.mpr ⟨hv, h1⟩))
            have hnFP : n ∉
                dkeys (kwargs.filter (fun kv => isPandas kv.2)) :=
              filter_keys_disjoint hnd
                (fun kv _ hk => not_isPandas_of_isNumpy hk) n
                (mem_dkeys_of_mem (List.mem_filter.mpr ⟨hv, h1⟩))
            rw [dlook_append_right, dlook_of_mem_nodup hndA2
              (List.mem_filter.mpr ⟨hv, h1⟩)]
            rw [dkeys_append]
            intro hmem
            rcases List.mem_append.mp hmem with h2 | h2
            · exact hnFS h2
            · rw [dkeys_cons] at h2
              rcases List.mem_cons.mp h2 with h3 | h3
              · exact hnes h3.symm
              · exact hnFP h3
          · have hnFS : n ∉
                dkeys (kwargs.filter (fun kv => isSpecialKind kv.2)) :=
              filter_keys_disjoint hnd
                (fun kv _ hk => not_isSpecialKind_of_isPandas hk) n
                (mem_dkeys_of_mem (List.mem_filter.mpr ⟨hv, h1⟩))
            rw [dlook_append_left, dlook_append_right hnFS, dlook_cons,
              if_neg hnes, dlook_of_mem_nodup hndP2
                (List.mem_filter.mpr ⟨hv, h1⟩)]
            rw [dkeys_append, dkeys_cons]
            refine List.mem_append.mpr (Or.inr ?_)
            exact List.mem_cons_of_mem _
              (mem_dkeys_of_mem (List.mem_filter.mpr ⟨hv, h1⟩))
          · rw [dlook_append_left, dlook_append_left
                (mem_dkeys_of_mem (List.mem_filter.mpr ⟨hv, h1⟩)),
              dlook_of_mem_nodup hndS2 (List.mem_filter.mpr ⟨hv, h1⟩)]
            rw [dkeys_append]
            exact List.mem_append.mpr (Or.inl
              (mem_dkeys_of_mem (List.mem_filter.mpr ⟨hv, h1⟩)))
        rw [List.append_assoc, List.cons_append] at hgoal
        simp [dlook_cons, hne1, hne2, hrhs, hgoal]

/-- C1 (witness): the amended round-trip theorem applied to the concrete
container of §8 of the spec: a list item, a frame item and an array item. -/
theorem C1_roundtrip_amended_witness :
    (∀ n, n ∈ dkeys (Container.from_hdf
        ((Container.init
          [("x", Val.list [1, 2, 3]),
           ("df", Val.frame (some "a") ["a1"] [[1]]),
           ("arr", Val.npArray [4, 5])]).to_hdf true
            emptyArchive).archive).items ↔
      (n ∈ dkeys (Container.init
          [("x", Val.list [1, 2, 3]),
           ("df", Val.frame (some "a") ["a1"] [[1]]),
           ("arr", Val.npArray [4, 5])]).items ∨ n = specName)) ∧
    (∀ n, n ∈ dkeys (Container.init
          [("x", Val.list [1, 2, 3]),
           ("df", Val.frame (some "a") ["a1"] [[1]]),
           ("arr", Val.npArray [4, 5])]).items →
      dlook n (Container.from_hdf
        ((Container.init
          [("x", Val.list [1, 2, 3]),
           ("df", Val.frame (some "a") ["a1"] [[1]]),
           ("arr", Val.npArray [4, 5])]).to_hdf true
            emptyArchive).archive).items =
        dlook n (Container.init
          [("x", Val.list [1, 2, 3]),
           ("df", Val.frame (some "a") ["a1"] [[1]]),
           ("arr", Val.npArray [4, 5])]).items) :=
  C1_roundtrip_amended
    [("x", Val.list [1, 2, 3]), ("df", Val.frame (some "a") ["a1"] [[1]]),
     ("arr", Val.npArray [4, 5])]
    (by decide)
    (by intro kv hkv; fin_cases hkv <;> simp [isNumpy, isPandas, isSpecialKind])
    (by decide) (by decide) (by decide)

theorem nodup_dkeys_dinsert {β : Type} {d : List (String × β)}
    (hd : (dkeys d).Nodup) (k : String) (v : β) :
    (dkeys (dinsert d k v)).Nodup := by
  unfold dinsert
  by_cases hc : (dkeys d).contains k = true
  · rw [if_pos hc, dkeys_map_replace]
    exact hd
  · rw [if_neg hc, dkeys_append]
    have hk : k ∉ dkeys d := fun h => hc (dcontains_iff.mpr h)
    refine List.Nodup.append hd (List.nodup_singleton k) ?_
    intro a ha hb
    have : a = k := List.mem_singleton.mp hb
    subst this
    exact hk ha

theorem nodup_foldl_dinsert {β : Type} (l : List (String × β)) :
    ∀ d0 : List (String × β), (dkeys d0).Nodup →
    (dkeys (l.foldl (fun d kv => dinsert d kv.1 kv.2) d0)).Nodup := by
  induction l with
  | nil => intro d0 h; exact h
  | cons kv rest ih =>
    intro d0 h
    exact ih _ (nodup_dkeys_dinsert h kv.1 kv.2)

theorem nodup_foldl_forbidden (l : List (String × Val)) :
    ∀ d0 : List (String × Val), (dkeys d0).Nodup →
    (dkeys (l.foldl
      (fun kw kv =>
        if forbiddenNames.contains kv.1 then kw
        else dinsert kw kv.1 kv.2) d0)).Nodup := by
  induction l with
  | nil => intro d0 h; exact h
  | cons kv rest ih =>
    intro d0 h
    rw [List.foldl_cons]
    by_cases hc : forbiddenNames.contains kv.1 = true
    · rw [if_pos hc]
      exact ih _ h
    · rw [if_neg hc]
      exact ih _ (nodup_dkeys_dinsert h kv.1 kv.2)

theorem nodup_foldl_skip {β : Type} (l : List (String × β)) :
    ∀ d0 : List (String × β), (dkeys d0).Nodup →
    (dkeys (l.foldl
      (fun kw kv =>
        if (dkeys kw).contains kv.1 then kw
        else dinsert kw kv.1 kv.2) d0)).Nodup := by
  induction l with
  | nil => intro d0 h; exact h
  | cons kv rest ih =>
    intro d0 h
    rw [List.foldl_cons]
    by_cases hc : (dkeys d0).contains kv.1 = true
    · rw [if_pos hc]
      exact ih _ h
    · rw [if_neg hc]
      exact ih _ (nodup_dkeys_dinsert h kv.1 kv.2)

theorem keys_foldl_dinsert_sub {β : Type} (l : List (String × β)) :
    ∀ d0 : List (String × β), ∀ n,
    n ∈ dkeys (l.foldl (fun d kv => dinsert d kv.1 kv.2) d0) →
    n ∈ dkeys d0 ∨ n ∈ dkeys l := by
  induction l with
  | nil => intro d0 n h; exact Or.inl h
  | cons kv rest ih =>
    intro d0 n h
    rw [List.foldl_cons] at h
    rcases ih _ n h with h2 | h2
    · rcases mem_dkeys_dinsert.mp h2 with h3 | h3
      · exact Or.inl h3
      · subst h3
        exact Or.inr (List.mem_cons_self _ _)
    · exact Or.inr (List.mem_cons_of_mem _ h2)

theorem keys_foldl_forbidden_sub (l : List (String × Val)) :
    ∀ d0 : List (String × Val), ∀ n,
    n ∈ dkeys (l.foldl
      (fun kw kv =>
        if forbiddenNames.contains kv.1 then kw
        else dinsert kw kv.1 kv.2) d0) →
    n ∈ dkeys d0 ∨ n ∈ dkeys l := by
  induction l with
  | nil => intro d0 n h; exact Or.inl h
  | cons kv rest ih =>
    intro d0 n h
    rw [List.foldl_cons] at h
    by_cases hc : forbiddenNames.contains kv.1 = true
    · rw [if_pos hc] at h
      rcases ih _ n h with h2 | h2
      · exact Or.inl h2
      · exact Or.inr (List.mem_cons_of_mem _ h2)
    · rw [if_neg hc] at h
      rcases ih _ n h with h2 | h2
      · rcases mem_dkeys_dinsert.mp h2 with h3 | h3
        · exact Or.inl h3
        · subst h3
          exact Or.inr (List.mem_cons_self _ _)
      · exact Or.inr (List.mem_cons_of_mem _ h2)

theorem keys_foldl_skip_sub {β : Type} (l : List (String × β)) :
    ∀ d0 : List (String × β), ∀ n,
    n ∈ dkeys (l.foldl
      (fun kw kv =>
        if (dkeys kw).contains kv.1 then kw
        else dinsert kw kv.1 kv.2) d0) →
    n ∈ dkeys d0 ∨ n ∈ dkeys l := by
  induction l with
  | nil => intro d0 n h; exact Or.inl h
  | cons kv rest ih =>
    intro d0 n h
    rw [List.foldl_cons] at h
    by_cases hc : (dkeys d0).contains kv.1 = true
    · rw [if_pos hc] at h
      rcases ih _ n h with h2 | h2
      · exact Or.inl h2
      · exact Or.inr (List.mem_cons_of_mem _ h2)
    · rw [if_neg hc] at h
      rcases ih _ n h with h2 | h2
      · rcases mem_dkeys_dinsert.mp h2 with h3 | h3
        · exact Or.inl h3
        · subst h3
          exact Or.inr (List.mem_cons_self _ _)
      · exact Or.inr (List.mem_cons_of_mem _ h2)

theorem itemName_eq_or_mem (k : String) :
    itemName k = k ∨ classProps.contains (itemName k) = true := by
  unfold itemName
  by_cases h : (underscored k && classProps.contains (k.drop 1)) = true
  · rw [if_pos h]
    exact Or.inr (Bool.and_eq_true _ _ |>.mp h).2
  · rw [if_neg h]
    exact Or.inl rfl

theorem dlook_map_itemName {l : List (String × Val)} {n : String}
    (hres : ¬ classProps.contains n = true) (hn : underscored n = false) :
    dlook n (l.map (fun kv => (itemName kv.1, kv.2))) = dlook n l := by
  have hnn : itemName n = n := itemName_id_of_not_underscored hn
  induction l with
  | nil => rfl
  | cons kv rest ih =>
    have hcase : itemName kv.1 = n ↔ kv.1 = n := by
      constructor
      · intro h
        rcases itemName_eq_or_mem kv.1 with h2 | h2
        · exact h2.symm.trans h
        · rw [h] at h2
          exact absurd h2 hres
      · intro h
        rw [h, hnn]
    by_cases he : kv.1 = n
    · simp [dlook, he, hcase.mpr he, hnn]
    · have hne : ¬ itemName kv.1 = n := fun h => he (hcase.mp h)
      simp [dlook, he, hne, ih]

theorem not_mem_keys_filter {l : List (String × Val)}
    (hnd : (dkeys l).Nodup) {n : String} {v : Val} (hv : (n, v) ∈ l)
    {p : (String × Val) → Bool} (hp : p (n, v) = false) :
    n ∉ dkeys (l.filter p) := by
  intro h
  rcases mem_dkeys.mp h with ⟨w, hw⟩
  have hwl := List.mem_of_mem_filter hw
  have he : v = w := vals_unique hnd hv hwl
  subst he
  rw [List.of_mem_filter hw] at hp
  exact Bool.false_ne_true hp.symm

theorem dlook_init_items (kwargs : List (String × Val))
    (hnd : (dkeys kwargs).Nodup)
    (h1 : "_default_prefix" ∉ dkeys kwargs) (h2 : "_meta" ∉ dkeys kwargs)
    {n : String} (hres : ¬ classProps.contains n = true)
    (hun : underscored n = false) {v : Val} (hv : dlook n kwargs = some v) :
    dlook n (Container.init kwargs).items = some v := by
  have hnedp : n ≠ "default_prefix" := by
    intro he
    exact hres (mem_classProps_iff.mpr (Or.inl he))
  have hnemt : n ≠ "meta" := by
    intro he
    exact hres (mem_classProps_iff.mpr (Or.inr he))
  rw [show (Container.init kwargs).items =
    (Container.init kwargs).vars.map (fun kv => (itemName kv.1, kv.2))
    from rfl]
  rw [dlook_map_itemName hres hun, init_vars kwargs hnd h1 h2]
  have hd1 : ("_default_prefix" : String) ≠ n := by
    intro he
    subst he
    simp [underscored] at hun
  have hd2 : ("_meta" : String) ≠ n := by
    intro he
    subst he
    simp [underscored] at hun
  rw [dlook_cons, dlook_cons, if_neg hd1, if_neg hd2]
  have hvm := mem_of_dlook_some hv
  have hmemf : (n, v) ∈ kwargs.filter
      (fun kv => kv.1 ≠ "default_prefix" && kv.1 ≠ "meta") :=
    List.mem_filter.mpr ⟨hvm, by simp [hnedp, hnemt]⟩
  exact dlook_of_mem_nodup
    (hnd.sublist ((List.filter_sublist kwargs).map Prod.fst)) hmemf

theorem not_mem_items_init (kwargs : List (String × Val))
    (hnd : (dkeys kwargs).Nodup)
    (h1 : "_default_prefix" ∉ dkeys kwargs) (h2 : "_meta" ∉ dkeys kwargs)
    {n : String} (hres : ¬ classProps.contains n = true)
    (hn : n ∉ dkeys kwargs) :
    n ∉ dkeys (Container.init kwargs).items := by
  intro h
  rw [show (Container.init kwargs).items =
    (Container.init kwargs).vars.map (fun kv => (itemName kv.1, kv.2))
    from rfl, init_vars kwargs hnd h1 h2] at h
  rcases List.mem_map.mp h with ⟨kv2, hkv2, he⟩
  rcases List.mem_map.mp hkv2 with ⟨kv, hkv, he2⟩
  subst he2
  rcases List.mem_cons.mp hkv with h3 | h3
  · subst h3
    rw [show itemName "_default_prefix" = "default_prefix" from by decide]
      at he
    exact hres (he ▸ mem_classProps_iff.mpr (Or.inl rfl))
  · rcases List.mem_cons.mp h3 with h4 | h4
    · subst h4
      rw [show itemName "_meta" = "meta" from by decide] at he
      exact hres (he ▸ mem_classProps_iff.mpr (Or.inr rfl))
    · have he2 : itemName kv.1 = n := he
      rcases itemName_eq_or_mem kv.1 with h5 | h5
      · have he3 : kv.1 = n := h5.symm.trans he2
        exact hn (keys_filter_sub (he3 ▸ mem_dkeys_of_mem h4))
      · rw [he2] at h5
        exact hres h5

/-- C3: name-collision policy on read.  For any archive holding an array node
`(n, w)` together with a same-named non-array value `(n, v)` written either as
a tabular record of the pandas store or as a special-kind attribute on the
sentinel storer (the latter requires the sentinel record to be present - it
always is in archives written by `to_hdf` - the name not to be forbidden, and
not to be shadowed by a tabular record), the container reconstructed by
`from_hdf` maps `n` to `v`: array nodes are only added to the keyword map
when their name is not already a key, so the array value is dropped.  (The
name is assumed not to start with the underscore marker and not to be one of
the two reserved property names; the archive's names are assumed not to
collide with the two underscore-prefixed storage slots.) -/
theorem C3_collision_policy (a : Archive) (n : String) (v w : Val)
    (hrec : (n, v) ∈ a.records ∨
      ((n, v) ∈ a.specialAttrs ∧ (dkeys a.specialAttrs).Nodup ∧
       n ∉ dkeys a.records ∧
       (dkeys a.records).contains specName = true ∧
       ¬ forbiddenNames.contains n = true))
    (hndrec : (dkeys a.records).Nodup)
    (harr : (n, w) ∈ a.arrayNodes)
    (hres : ¬ classProps.contains n = true)
    (hund : underscored n = false)
    (hclean : ∀ m, (m ∈ dkeys a.specialAttrs ∨ m ∈ dkeys a.records ∨
      m ∈ dkeys a.arrayNodes) → m ≠ "_default_prefix" ∧ m ≠ "_meta") :
    dlook n (Container.from_hdf a).items = some v ∧
    (w ≠ v → dlook n (Container.from_hdf a).items ≠ some w) := by
  have e0 : Container.from_hdf a =
      Container.init
        (a.arrayNodes.foldl
          (fun kw kv =>
            if (dkeys kw).contains kv.1 then kw else dinsert kw kv.1 kv.2)
          (a.records.foldl (fun kw kv => dinsert kw kv.1 kv.2)
            (if (dkeys a.records).contains specName then
              a.specialAttrs.foldl
                (fun kw kv =>
                  if forbiddenNames.contains kv.1 then kw
                  else dinsert kw kv.1 kv.2) []
            else []))) := rfl
  have hkw0nd : (dkeys (if (dkeys a.records).contains specName then
      a.specialAttrs.foldl
        (fun kw kv =>
          if forbiddenNames.contains kv.1 then kw
          else dinsert kw kv.1 kv.2) []
    else [])).Nodup := by
    split
    · exact nodup_foldl_forbidden _ [] (by simp [dkeys])
    · simp [dkeys]
  have hkw0sub : ∀ m, m ∈ dkeys (if (dkeys a.records).contains specName then
      a.specialAttrs.foldl
        (fun kw kv =>
          if forbiddenNames.contains kv.1 then kw
          else dinsert kw kv.1 kv.2) []
    else []) → m ∈ dkeys a.specialAttrs := by
    intro m hm
    revert hm
    split
    · intro hm
      rcases keys_foldl_forbidden_sub _ _ _ hm with h | h
      · simp [dkeys] at h
      · exact h
    · intro hm
      simp [dkeys] at hm
  have h1v : dlook n (a.records.foldl (fun kw kv => dinsert kw kv.1 kv.2)
      (if (dkeys a.records).contains specName then
        a.specialAttrs.foldl
          (fun kw kv =>
            if forbiddenNames.contains kv.1 then kw
            else dinsert kw kv.1 kv.2) []
      else [])) = some v := by
    rcases hrec with h | ⟨hmem, hnda, hnr, hsp, hnf⟩
    · exact dlook_foldl_dinsert_of_mem hndrec h _
    · rw [dlook_foldl_dinsert_not_mem hnr, if_pos hsp]
      exact dlook_foldl_forbidden_of_mem hnda hmem hnf []
  have h2v : dlook n (a.arrayNodes.foldl
      (fun kw kv =>
        if (dkeys kw).contains kv.1 then kw else dinsert kw kv.1 kv.2)
      (a.records.foldl (fun kw kv => dinsert kw kv.1 kv.2)
        (if (dkeys a.records).contains specName then
          a.specialAttrs.foldl
            (fun kw kv =>
              if forbiddenNames.contains kv.1 then kw
              else dinsert kw kv.1 kv.2) []
        else []))) = some v :=
    dlook_foldl_skip_preserved h1v
  have hnd1 := nodup_foldl_dinsert a.records _ hkw0nd
  have hnd2 := nodup_foldl_skip a.arrayNodes _ hnd1
  have hsub2 : ∀ m, m ∈ dkeys (a.arrayNodes.foldl
      (fun kw kv =>
        if (dkeys kw).contains kv.1 then kw else dinsert kw kv.1 kv.2)
      (a.records.foldl (fun kw kv => dinsert kw kv.1 kv.2)
        (if (dkeys a.records).contains specName then
          a.specialAttrs.foldl
            (fun kw kv =>
              if forbiddenNames.contains kv.1 then kw
              else dinsert kw kv.1 kv.2) []
        else []))) →
      (m ∈ dkeys a.specialAttrs ∨ m ∈ dkeys a.records ∨
        m ∈ dkeys a.arrayNodes) := by
    intro m hm
    rcases keys_foldl_skip_sub _ _ _ hm with h | h
    · rcases keys_foldl_dinsert_sub _ _ _ h with h2 | h2
      · exact Or.inl (hkw0sub m h2)
      · exact Or.inr (Or.inl h2)
    · exact Or.inr (Or.inr h)
  have hcl1 : "_default_prefix" ∉ dkeys (a.arrayNodes.foldl
      (fun kw kv =>
        if (dkeys kw).contains kv.1 then kw else dinsert kw kv.1 kv.2)
      (a.records.foldl (fun kw kv => dinsert kw kv.1 kv.2)
        (if (dkeys a.records).contains specName then
          a.specialAttrs.foldl
            (fun kw kv =>
              if forbiddenNames.contains kv.1 then kw
              else dinsert kw kv.1 kv.2) []
        else []))) := by
    intro hm
    exact (hclean _ (hsub2 _ hm)).1 rfl
  have hcl2 : "_meta" ∉ dkeys (a.arrayNodes.foldl
      (fun kw kv =>
        if (dkeys kw).contains kv.1 then kw else dinsert kw kv.1 kv.2)
      (a.records.foldl (fun kw kv => dinsert kw kv.1 kv.2)
        (if (dkeys a.records).contains specName then
          a.specialAttrs.foldl
            (fun kw kv =>
              if forbiddenNames.contains kv.1 then kw
              else dinsert kw kv.1 kv.2) []
        else []))) := by
    intro hm
    exact (hclean _ (hsub2 _ hm)).2 rfl
  have hmain : dlook n (Container.from_hdf a).items = some v := by
    rw [e0]
    exact dlook_init_items _ hnd2 hcl1 hcl2 hres hund h2v
  refine ⟨hmain, ?_⟩
  intro hne hcontra
  rw [hmain] at hcontra
  exact hne (Option.some.inj hcontra).symm

/-- C3 (witness): two concrete archives, one holding an array node `n`
together with a tabular record `n`, the other holding an array node `s`
together with a sentinel special attribute `s`; reading each back yields the
non-array value. -/
theorem C3_collision_policy_witness :
    (dlook "n" (Container.from_hdf
      ⟨[("n", Val.npArray [9])],
       [(specName, Val.series []), ("n", Val.frame none ["c"] [[1]])],
       []⟩).items = some (Val.frame none ["c"] [[1]]) ∧
    (Val.npArray [9] ≠ Val.frame none ["c"] [[1]] →
      dlook "n" (Container.from_hdf
        ⟨[("n", Val.npArray [9])],
         [(specName, Val.series []), ("n", Val.frame none ["c"] [[1]])],
         []⟩).items ≠ some (Val.npArray [9]))) ∧
    (dlook "s" (Container.from_hdf
      ⟨[("s", Val.npArray [7])],
       [(specName, Val.series [])],
       [("s", Val.int 3)]⟩).items = some (Val.int 3) ∧
    (Val.npArray [7] ≠ Val.int 3 →
      dlook "s" (Container.from_hdf
        ⟨[("s", Val.npArray [7])],
         [(specName, Val.series [])],
         [("s", Val.int 3)]⟩).items ≠ some (Val.npArray [7]))) :=
  ⟨C3_collision_policy
    ⟨[("n", Val.npArray [9])],
     [(specName, Val.series []), ("n", Val.frame none ["c"] [[1]])], []⟩
    "n" (Val.frame none ["c"] [[1]]) (Val.npArray [9])
    (by decide) (by decide) (by decide) (by decide) (by decide)
    (by
      intro m hm
      rcases hm with h | h | h
      · simp [dkeys] at h
      · simp [dkeys, specName] at h
        rcases h with h | h <;> subst h <;> exact ⟨by decide, by decide⟩
      · simp [dkeys] at h
        subst h
        exact ⟨by decide, by decide⟩),
   C3_collision_policy
    ⟨[("s", Val.npArray [7])],
     [(specName, Val.series [])], [("s", Val.int 3)]⟩
    "s" (Val.int 3) (Val.npArray [7])
    (by decide) (by decide) (by decide) (by decide) (by decide)
    (by
      intro m hm
      rcases hm with h | h | h
      · simp [dkeys] at h
        subst h
        exact ⟨by decide, by decide⟩
      · simp [dkeys, specName] at h
        subst h
        exact ⟨by decide, by decide⟩
      · simp [dkeys] at h
        subst h
        exact ⟨by decide, by decide⟩)⟩

theorem items_facts (kwargs : List (String × Val))
    (hnd : (dkeys kwargs).Nodup)
    (hres : ∀ m ∈ dkeys kwargs, ¬ classProps.contains m = true)
    (hund : ∀ m ∈ dkeys kwargs, underscored m = false) :
    (dkeys (Container.init kwargs).items).Nodup ∧
    specName ∉ dkeys (Container.init kwargs).items := by
  have hdpm := dp_not_mem_of_res hres
  have hspecK := specName_not_mem_of_und hund
  have hitems := items_init_clean kwargs hnd hres hund
  constructor
  · rw [hitems]
    refine List.nodup_cons.mpr ⟨?_, List.nodup_cons.mpr ⟨hdpm.2, hnd⟩⟩
    intro hmem
    rcases List.mem_cons.mp hmem with h | h
    · exact absurd h (by decide)
    · exact hdpm.1 h
  · rw [hitems]
    intro hmem
    rcases List.mem_cons.mp hmem with h | h
    · exact absurd h (by decide)
    · rcases List.mem_cons.mp h with h2 | h2
      · exact absurd h2 (by decide)
      · exact hspecK h2

/-- C6: unsupported-type write policy.  For a container holding an item of an
unclassified kind (a plain Python object) among uniquely-named items, writing
with the default `warn=True` records exactly one warning for that item and
returns (the model has no exception path out of `to_hdf`), the written
archive holds the item's name in none of its three stores, and the container
read back from the archive does not contain the name either. -/
theorem C6_unsupported_policy (kwargs : List (String × Val)) (n : String)
    (sh : Option String) (sz : Option SizeAttr) (ln : Option Nat)
    (hmem : (n, Val.obj sh sz ln) ∈ kwargs)
    (hnd : (dkeys kwargs).Nodup)
    (hres : ∀ m ∈ dkeys kwargs, ¬ classProps.contains m = true)
    (hund : ∀ m ∈ dkeys kwargs, underscored m = false)
    (hforb : ∀ m ∈ dkeys kwargs, ¬ forbiddenNames.contains m = true) :
    ((Container.init kwargs).to_hdf true emptyArchive).warnings.count n = 1 ∧
    n ∉ dkeys ((Container.init kwargs).to_hdf true
      emptyArchive).archive.arrayNodes ∧
    n ∉ dkeys ((Container.init kwargs).to_hdf true
      emptyArchive).archive.records ∧
    n ∉ dkeys ((Container.init kwargs).to_hdf true
      emptyArchive).archive.specialAttrs ∧
    n ∉ dkeys (Container.from_hdf ((Container.init kwargs).to_hdf true
      emptyArchive).archive).items := by
  have hdpm := dp_not_mem_of_res hres
  have hspecK := specName_not_mem_of_und hund
  have hitems := items_init_clean kwargs hnd hres hund
  have hfacts := items_facts kwargs hnd hres hund
  have hw := to_hdf_empty (Container.init kwargs) true hfacts.1 hfacts.2
  have hnin : n ∈ dkeys kwargs := mem_dkeys_of_mem hmem
  have hmemI : (n, Val.obj sh sz ln) ∈ (Container.init kwargs).items := by
    rw [hitems]
    exact List.mem_cons_of_mem _ (List.mem_cons_of_mem _ hmem)
  have hneq : n ≠ specName := by
    intro he
    exact hspecK (he ▸ hnin)
  have hner := hres n hnin
  refine ⟨?_, ?_, ?_, ?_, ?_⟩
  · rw [hw]
    have hpred : (fun kv : String × Val =>
        !isNumpy kv.2 && !isPandas kv.2 && !isSpecialKind kv.2 &&
          (kv.2 ≠ Val.pyNone && true)) (n, Val.obj sh sz ln) = true := by
      simp [isNumpy, isPandas, isSpecialKind]
    apply List.count_eq_one_of_mem
    · exact hfacts.1.sublist
        ((List.filter_sublist (Container.init kwargs).items).map Prod.fst)
    · exact mem_dkeys_of_mem (List.mem_filter.mpr ⟨hmemI, hpred⟩)
  · rw [hw]
    exact not_mem_keys_filter hfacts.1 hmemI (by simp [isNumpy])
  · rw [hw]
    intro hmem2
    rw [dkeys_cons] at hmem2
    rcases List.mem_cons.mp hmem2 with h | h
    · exact hneq h
    · exact not_mem_keys_filter hfacts.1 hmemI (by simp [isPandas]) h
  · rw [hw]
    exact not_mem_keys_filter hfacts.1 hmemI (by simp [isSpecialKind])
  · rw [roundtrip_items kwargs hnd hres hund hforb]
    intro hmem2
    rw [dkeys_cons, dkeys_cons] at hmem2
    rcases List.mem_cons.mp hmem2 with h | h
    · exact hner (h ▸ mem_classProps_iff.mpr (Or.inl rfl))
    · rcases List.mem_cons.mp h with h2 | h2
      · exact hner (h2 ▸ mem_classProps_iff.mpr (Or.inr rfl))
      · rw [dkeys_append, dkeys_append, dkeys_cons] at h2
        rcases List.mem_append.mp h2 with h3 | h3
        · rcases List.mem_append.mp h3 with h4 | h4
          · exact not_mem_keys_filter hnd hmem (by simp [isSpecialKind]) h4
          · rcases List.mem_cons.mp h4 with h5 | h5
            · exact hneq h5
            · exact not_mem_keys_filter hnd hmem (by simp [isPandas]) h5
        · exact not_mem_keys_filter hnd hmem (by simp [isNumpy]) h3

/-- C6 (witness): a container with one custom object `g`; writing warns once
for `g` and the archive and the read-back container never hold `g`. -/
theorem C6_unsupported_policy_witness :
    ((Container.init [("g", Val.obj none none none),
      ("x", Val.int 3)]).to_hdf true emptyArchive).warnings.count "g" = 1 ∧
    "g" ∉ dkeys ((Container.init [("g", Val.obj none none none),
      ("x", Val.int 3)]).to_hdf true emptyArchive).archive.arrayNodes ∧
    "g" ∉ dkeys ((Container.init [("g", Val.obj none none none),
      ("x", Val.int 3)]).to_hdf true emptyArchive).archive.records ∧
    "g" ∉ dkeys ((Container.init [("g", Val.obj none none none),
      ("x", Val.int 3)]).to_hdf true emptyArchive).archive.specialAttrs ∧
    "g" ∉ dkeys (Container.from_hdf
      ((Container.init [("g", Val.obj none none none),
        ("x", Val.int 3)]).to_hdf true emptyArchive).archive).items :=
  C6_unsupported_policy [("g", Val.obj none none none), ("x", Val.int 3)]
    "g" none none none (by decide) (by decide) (by decide) (by decide)
    (by decide)

/-- C9: a `None`-valued item is silently dropped at archive time.  For a
container holding an item whose value is `None` among uniquely-named items,
`to_hdf` with `warn=True` classifies it into none of the three save lanes
and emits no warning for it, the archive holds its name in none of the three
stores, and the read-back container does not contain the name. -/
theorem C9_none_silently_dropped (kwargs : List (String × Val)) (n : String)
    (hmem : (n, Val.pyNone) ∈ kwargs)
    (hnd : (dkeys kwargs).Nodup)
    (hres : ∀ m ∈ dkeys kwargs, ¬ classProps.contains m = true)
    (hund : ∀ m ∈ dkeys kwargs, underscored m = false)
    (hforb : ∀ m ∈ dkeys kwargs, ¬ forbiddenNames.contains m = true) :
    n ∉ dkeys (classifyItems (Container.init kwargs).items true).1 ∧
    n ∉ dkeys (classifyItems (Container.init kwargs).items true).2.1 ∧
    n ∉ dkeys (classifyItems (Container.init kwargs).items true).2.2.1 ∧
    n ∉ (classifyItems (Container.init kwargs).items true).2.2.2 ∧
    n ∉ dkeys ((Container.init kwargs).to_hdf true
      emptyArchive).archive.arrayNodes ∧
    n ∉ dkeys ((Container.init kwargs).to_hdf true
      emptyArchive).archive.records ∧
    n ∉ dkeys ((Container.init kwargs).to_hdf true
      emptyArchive).archive.specialAttrs ∧
    n ∉ dkeys (Container.from_hdf ((Container.init kwargs).to_hdf true
      emptyArchive).archive).items := by
  have hdpm := dp_not_mem_of_res hres
  have hspecK := specName_not_mem_of_und hund
  have hitems := items_init_clean kwargs hnd hres hund
  have hfacts := items_facts kwargs hnd hres hund
  have hcl := classifyItems_eq (Container.init kwargs).items true hfacts.1
  have hw := to_hdf_empty (Container.init kwargs) true hfacts.1 hfacts.2
  have hnin : n ∈ dkeys kwargs := mem_dkeys_of_mem hmem
  have hmemI : (n, Val.pyNone) ∈ (Container.init kwargs).items := by
    rw [hitems]
    exact List.mem_cons_of_mem _ (List.mem_cons_of_mem _ hmem)
  have hneq : n ≠ specName := by
    intro he
    exact hspecK (he ▸ hnin)
  have hner := hres n hnin
  refine ⟨?_, ?_, ?_, ?_, ?_, ?_, ?_, ?_⟩
  · rw [hcl]
    exact not_mem_keys_filter hfacts.1 hmemI (by simp [isNumpy])
  · rw [hcl]
    exact not_mem_keys_filter hfacts.1 hmemI (by simp [isPandas])
  · rw [hcl]
    exact not_mem_keys_filter hfacts.1 hmemI (by simp [isSpecialKind])
  · rw [hcl]
    intro hmem2
    rcases List.mem_map.mp hmem2 with ⟨kv, hkv, he⟩
    have hkvl := List.mem_of_mem_filter hkv
    have hvals : Val.pyNone = kv.2 := by
      have : kv = (n, kv.2) := by
        rw [← he]
      rw [this] at hkvl
      exact vals_unique hfacts.1 hmemI hkvl
    have hp := List.of_mem_filter hkv
    rw [← hvals] at hp
    simp at hp
  · rw [hw]
    exact not_mem_keys_filter hfacts.1 hmemI (by simp [isNumpy])
  · rw [hw]
    intro hmem2
    rw [dkeys_cons] at hmem2
    rcases List.mem_cons.mp hmem2 with h | h
    · exact hneq h
    · exact not_mem_keys_filter hfacts.1 hmemI (by simp [isPandas]) h
  · rw [hw]
    exact not_mem_keys_filter hfacts.1 hmemI (by simp [isSpecialKind])
  · rw [roundtrip_items kwargs hnd hres hund hforb]
    intro hmem2
    rw [dkeys_cons, dkeys_cons] at hmem2
    rcases List.mem_cons.mp hmem2 with h | h
    · exact hner (h ▸ mem_classProps_iff.mpr (Or.inl rfl))
    · rcases List.mem_cons.mp h with h2 | h2
      · exact hner (h2 ▸ mem_classProps_iff.mpr (Or.inr rfl))
      · rw [dkeys_append, dkeys_append, dkeys_cons] at h2
        rcases List.mem_append.mp h2 with h3 | h3
        · rcases List.mem_append.mp h3 with h4 | h4
          · exact not_mem_keys_filter hnd hmem (by simp [isSpecialKind]) h4
          · rcases List.mem_cons.mp h4 with h5 | h5
            · exact hneq h5
            · exact not_mem_keys_filter hnd hmem (by simp [isPandas]) h5
        · exact not_mem_keys_filter hnd hmem (by simp [isNumpy]) h3

/-- C9 (witness): a container whose item `m` is `None`; the write produces no
lane entry, no warning and no archive key for `m`, and the read-back
container lacks `m`. -/
theorem C9_none_silently_dropped_witness :
    "m" ∉ dkeys (classifyItems (Container.init
      [("m", Val.pyNone), ("x", Val.int 3)]).items true).1 ∧
    "m" ∉ dkeys (classifyItems (Container.init
      [("m", Val.pyNone), ("x", Val.int 3)]).items true).2.1 ∧
    "m" ∉ dkeys (classifyItems (Container.init
      [("m", Val.pyNone), ("x", Val.int 3)]).items true).2.2.1 ∧
    "m" ∉ (classifyItems (Container.init
      [("m", Val.pyNone), ("x", Val.int 3)]).items true).2.2.2 ∧
    "m" ∉ dkeys ((Container.init [("m", Val.pyNone), ("x", Val.int 3)]).to_hdf
      true emptyArchive).archive.arrayNodes ∧
    "m" ∉ dkeys ((Container.init [("m", Val.pyNone), ("x", Val.int 3)]).to_hdf
      true emptyArchive).archive.records ∧
    "m" ∉ dkeys ((Container.init [("m", Val.pyNone), ("x", Val.int 3)]).to_hdf
      true emptyArchive).archive.specialAttrs ∧
    "m" ∉ dkeys (Container.from_hdf
      ((Container.init [("m", Val.pyNone), ("x", Val.int 3)]).to_hdf true
        emptyArchive).archive).items :=
  C9_none_silently_dropped [("m", Val.pyNone), ("x", Val.int 3)] "m"
    (by decide) (by decide) (by decide) (by decide) (by decide)

/-- C2 (counterexample): a container constructed with no items at all still
yields two registry pairs — the `default_prefix` and `meta` reserved fields
are attached like any other attribute and `_items` reports them (under their
public, alias-resolved names) rather than excluding them. -/
theorem C2_counterexample :
    (Container.init []).items.length ≠ 0 ∧
    ("default_prefix", Val.str "obj_") ∈ (Container.init []).items ∧
    ("meta", Val.pyNone) ∈ (Container.init []).items := by
  decide

/-- C2 (amended): for a container built from N uniquely-named keyword items
(names avoiding the reserved property names and the underscore marker), the
registry yields exactly N + 2 pairs: the two reserved fields under their
public names — their storage keys `_default_prefix`/`_meta` are aliased to
the unmarked property names — followed by the N items under their stored
names unchanged; and every stored attribute is reported under `itemName` of
its key. -/
theorem C2_registry_amended (kwargs : List (String × Val))
    (hnd : (dkeys kwargs).Nodup)
    (hres : ∀ m ∈ dkeys kwargs, ¬ classProps.contains m = true)
    (hund : ∀ m ∈ dkeys kwargs, underscored m = false) :
    (Container.init kwargs).items.length = kwargs.length + 2 ∧
    (Container.init kwargs).items =
      ("default_prefix", Val.str "obj_") :: ("meta", Val.pyNone) :: kwargs ∧
    ("_default_prefix", Val.str "obj_") ∈ (Container.init kwargs).vars ∧
    ("_meta", Val.pyNone) ∈ (Container.init kwargs).vars ∧
    (∀ k v, (k, v) ∈ (Container.init kwargs).vars →
      (itemName k, v) ∈ (Container.init kwargs).items) := by
  have hi := items_init_clean kwargs hnd hres hund
  have hu := not_underscored_mem hund
  have hv := init_vars kwargs hnd hu.1 hu.2
  have hdp : dlook "default_prefix" kwargs = none := by
    apply dlook_eq_none
    intro h
    exact hres _ h (mem_classProps_iff.mpr (Or.inl rfl))
  have hmv : dlook "meta" kwargs = none := by
    apply dlook_eq_none
    intro h
    exact hres _ h (mem_classProps_iff.mpr (Or.inr rfl))
  refine ⟨?_, hi, ?_, ?_, ?_⟩
  · rw [hi]
    simp
  · rw [hv, hdp]
    exact List.mem_cons_self _ _
  · rw [hv, hmv]
    exact List.mem_cons_of_mem _ (List.mem_cons_self _ _)
  · intro k v hkv
    exact List.mem_map.mpr ⟨(k, v), hkv, rfl⟩

/-- C2 (witness): the amended registry law at a concrete single-item
container. -/
theorem C2_registry_amended_witness :
    (Container.init [("x", Val.int 1)]).items.length = 1 + 2 ∧
    (Container.init [("x", Val.int 1)]).items =
      ("default_prefix", Val.str "obj_") :: ("meta", Val.pyNone) ::
        [("x", Val.int 1)] ∧
    ("_default_prefix", Val.str "obj_") ∈
      (Container.init [("x", Val.int 1)]).vars ∧
    ("_meta", Val.pyNone) ∈ (Container.init [("x", Val.int 1)]).vars ∧
    (∀ k v, (k, v) ∈ (Container.init [("x", Val.int 1)]).vars →
      (itemName k, v) ∈ (Container.init [("x", Val.int 1)]).items) := by
  have h := C2_registry_amended [("x", Val.int 1)] (by decide) (by decide)
    (by decide)
  exact ⟨h.1, h.2.1, h.2.2.1, h.2.2.2.1, h.2.2.2.2⟩

/-- C8 (counterexample): deleting the property-backed item `meta` by its
public name is a silent no-op: `__delitem__` only acts when the key is in
`vars(self)`, and the public name is not — the storage key is `_meta`.  The
underlying storage survives and the registry still reports the item. -/
theorem C8_counterexample :
    (Container.init []).delitem "meta" = Container.init [] ∧
    ("_meta", Val.pyNone) ∈ ((Container.init []).delitem "meta").vars ∧
    ("meta", Val.pyNone) ∈ ((Container.init []).delitem "meta").items := by
  decide

/-- C8 (amended): `__delitem__` removes the attribute when the given key is a
stored (instance-dict) name — afterwards the key is gone from `vars` — while
a key not in `vars` (in particular a property-backed public name, whose
storage lives under the underscore-prefixed key) leaves the container
unchanged, the underlying prefixed storage included. -/
theorem C8_delitem_amended (c : Container) (k : String) :
    k ∉ dkeys (c.delitem k).vars ∧
    (k ∉ dkeys c.vars → c.delitem k = c ∧
      dlook ("_" ++ k) (c.delitem k).vars = dlook ("_" ++ k) c.vars) := by
  constructor
  · unfold Container.delitem
    by_cases hc : (dkeys c.vars).contains k = true
    · rw [if_pos hc]
      intro h
      rcases mem_dkeys.mp h with ⟨v, hv⟩
      have := List.of_mem_filter hv
      simp at this
    · rw [if_neg hc]
      exact fun h => hc (dcontains_iff.mpr h)
  · intro h
    have he : c.delitem k = c := by
      unfold Container.delitem
      rw [if_neg (fun hc => h (dcontains_iff.mp hc))]
    exact ⟨he, by rw [he]⟩

/-- C8 (witness): the amended deletion law at the empty container and the
public name `meta`: the deletion is a no-op and `_meta` keeps its value. -/
theorem C8_delitem_amended_witness :
    "meta" ∉ dkeys ((Container.init []).delitem "meta").vars ∧
    (Container.init []).delitem "meta" = Container.init [] ∧
    dlook "_meta" ((Container.init []).delitem "meta").vars =
      dlook "_meta" (Container.init []).vars :=
  ⟨(C8_delitem_amended (Container.init []) "meta").1,
   ((C8_delitem_amended (Container.init []) "meta").2 (by decide)).1,
   ((C8_delitem_amended (Container.init []) "meta").2 (by decide)).2⟩

theorem eqB_of_pointwise (c d : Container)
    (h : ∀ n v, (n, v) ∈ c.items → d.hasattrB n = true →
      allEqB (d.getattrD n) v = true) :
    c.eqB d = true := by
  unfold Container.eqB
  rw [List.all_eq_true]
  intro kv hkv
  by_cases hh : d.hasattrB kv.1 = true
  · have := h kv.1 kv.2 (by
      rw [show ((kv.1, kv.2) : String × Val) = kv from rfl]
      exact hkv) hh
    simp [hh, this]
  · simp [Bool.not_eq_true] at hh
    simp [hh]

/-- C10: `__eq__` constrains only the left container's registry items whose
names the right container responds to.  (1) Whenever every registry item of
`c` whose name is an attribute of `d` compares all-elements-equal to `d`'s
value, `c == d` is `True`.  (2) Two default-configured containers with
disjoint (clean) item name sets compare equal.  (3) `==` is not symmetric:
a container holding the item `info = 5` compares unequal to an empty
container (the empty container responds to `info` with the bound method,
which is not all-elements-equal to `5`), while the empty container compares
equal to it. -/
theorem C10_eq_projection :
    (∀ c d : Container,
      (∀ n v, (n, v) ∈ c.items → d.hasattrB n = true →
        allEqB (d.getattrD n) v = true) →
      c.eqB d = true) ∧
    (∀ kwargs1 kwargs2 : List (String × Val),
      (∀ m ∈ dkeys kwargs1, ¬ classProps.contains m = true) →
      (∀ m ∈ dkeys kwargs2, ¬ classProps.contains m = true) →
      (∀ m ∈ dkeys kwargs1, underscored m = false) →
      (∀ m ∈ dkeys kwargs2, underscored m = false) →
      (∀ m ∈ dkeys kwargs1, ¬ classMethods.contains m = true) →
      (∀ m ∈ dkeys kwargs1, m ∉ dkeys kwargs2) →
      (dkeys kwargs1).Nodup → (dkeys kwargs2).Nodup →
      (Container.init kwargs1).eqB (Container.init kwargs2) = true) ∧
    ((Container.init [("info", Val.int 5)]).eqB (Container.init []) =
      false ∧
     (Container.init []).eqB (Container.init [("info", Val.int 5)]) =
      true) := by
  refine ⟨fun c d h => eqB_of_pointwise c d h, ?_, by decide, by decide⟩
  intro kwargs1 kwargs2 hres1 hres2 hund1 hund2 hmeth1 hdisj hnd1 hnd2
  apply eqB_of_pointwise
  intro n v hnv hattr
  have hi1 := items_init_clean kwargs1 hnd1 hres1 hund1
  have hu2 := not_underscored_mem hund2
  have hv2 := init_vars kwargs2 hnd2 hu2.1 hu2.2
  have hdp2 : dlook "default_prefix" kwargs2 = none := by
    apply dlook_eq_none
    intro h
    exact hres2 _ h (mem_classProps_iff.mpr (Or.inl rfl))
  have hmv2 : dlook "meta" kwargs2 = none := by
    apply dlook_eq_none
    intro h
    exact hres2 _ h (mem_classProps_iff.mpr (Or.inr rfl))
  rw [hi1] at hnv
  rcases List.mem_cons.mp hnv with he | hnv2
  · rcases Prod.mk.injEq .. ▸ he with ⟨e1, e2⟩
    subst e1
    subst e2
    have hlk : dlook "default_prefix" (Container.init kwargs2).vars = none := by
      apply dlook_eq_none
      rw [hv2, dkeys_cons, dkeys_cons]
      intro hmem
      rcases List.mem_cons.mp hmem with h | h
      · exact absurd h (by decide)
      · rcases List.mem_cons.mp h with h2 | h2
        · exact absurd h2 (by decide)
        · exact hres2 _ (keys_filter_sub h2)
            (mem_classProps_iff.mpr (Or.inl rfl))
    have hlk2 : dlook "_default_prefix"
        (Container.init kwargs2).vars = some (Val.str "obj_") := by
      rw [hv2, hdp2, dlook_cons, if_pos (by decide)]
      rfl
    have hgd : (Container.init kwargs2).getattrD "default_prefix" =
        Val.str "obj_" := by
      unfold Container.getattrD
      rw [hlk]
      simp [hlk2, classProps]
    rw [hgd]
    simp [allEqB]
  · rcases List.mem_cons.mp hnv2 with he | hnv3
    · rcases Prod.mk.injEq .. ▸ he with ⟨e1, e2⟩
      subst e1
      subst e2
      have hlk : dlook "meta" (Container.init kwargs2).vars = none := by
        apply dlook_eq_none
        rw [hv2, dkeys_cons, dkeys_cons]
        intro hmem
        rcases List.mem_cons.mp hmem with h | h
        · exact absurd h (by decide)
        · rcases List.mem_cons.mp h with h2 | h2
          · exact absurd h2 (by decide)
          · exact hres2 _ (keys_filter_sub h2)
              (mem_classProps_iff.mpr (Or.inr rfl))
      have hlk2 : dlook "_meta" (Container.init kwargs2).vars =
          some Val.pyNone := by
        rw [hv2, hmv2, dlook_cons, dlook_cons, if_neg (by decide),
          if_pos (by decide)]
        rfl
      have hgd : (Container.init kwargs2).getattrD "meta" = Val.pyNone := by
        unfold Container.getattrD
        rw [hlk]
        simp [hlk2, classProps]
      rw [hgd]
      simp [allEqB]
    · exfalso
      have hn1 : n ∈ dkeys kwargs1 := mem_dkeys_of_mem hnv3
      have hnvars : n ∉ dkeys (Container.init kwargs2).vars := by
        rw [hv2, dkeys_cons, dkeys_cons]
        intro hmem
        rcases List.mem_cons.mp hmem with h | h
        · subst h
          have := hund1 _ hn1
          simp [underscored] at this
        · rcases List.mem_cons.mp h with h2 | h2
          · subst h2
            have := hund1 _ hn1
            simp [underscored] at this
          · exact hdisj n hn1 (keys_filter_sub h2)
      unfold Container.hasattrB at hattr
      rw [show ((dkeys (Container.init kwargs2).vars).contains n) =
        false from by
          rw [← Bool.not_eq_true]
          exact fun hc => hnvars (dcontains_iff.mp hc)] at hattr
      rw [show classProps.contains n = false from by
        rw [← Bool.not_eq_true]
        exact hres1 n hn1] at hattr
      rw [show classMethods.contains n = false from by
        rw [← Bool.not_eq_true]
        exact hmeth1 n hn1] at hattr
      simp at hattr

/-- C10 (witness): part (1) of the projection law applied to two concrete
containers, and part (2) applied to two containers with disjoint items. -/
theorem C10_eq_projection_witness :
    (Container.init [("x", Val.int 7)]).eqB
      (Container.init [("x", Val.int 7), ("y", Val.int 8)]) = true ∧
    (Container.init [("x", Val.int 7)]).eqB
      (Container.init [("z", Val.int 9)]) = true :=
  ⟨C10_eq_projection.1 (Container.init [("x", Val.int 7)])
      (Container.init [("x", Val.int 7), ("y", Val.int 8)])
      (by
        intro n v hnv hattr
        have he : (Container.init [("x", Val.int 7)]).items =
            [("default_prefix", Val.str "obj_"), ("meta", Val.pyNone),
             ("x", Val.int 7)] := by decide
        rw [he] at hnv
        rcases List.mem_cons.mp hnv with h | hnv
        · rcases Prod.mk.injEq .. ▸ h with ⟨e1, e2⟩
          subst e1
          subst e2
          decide
        · rcases List.mem_cons.mp hnv with h | hnv
          · rcases Prod.mk.injEq .. ▸ h with ⟨e1, e2⟩
            subst e1
            subst e2
            decide
          · rcases List.mem_cons.mp hnv with h | hnv
            · rcases Prod.mk.injEq .. ▸ h with ⟨e1, e2⟩
              subst e1
              subst e2
              decide
            · simp at hnv),
   C10_eq_projection.2.1 [("x", Val.int 7)] [("z", Val.int 9)]
      (by decide) (by decide) (by decide) (by decide) (by decide) (by decide)
      (by decide) (by decide)⟩

/-- C7: `info`'s shape chain is not total.  The failing input: a container
holding an item whose `size` attribute is callable but whose result has no
`to_dict` — the `AttributeError` raised by `str(item.size().to_dict())` is
outside the only `try`/`except` (which guards the `len` fallback), so
`info()` raises instead of downgrading to the placeholder.  Secondary
divergence at a second input: for an item with a non-callable `size`
attribute and no `shape`, no branch assigns the shape local, so the row
reuses the placeholder left by the previous (`meta`) iteration instead of
falling back to the item's length `7`. -/
theorem C7_info_bug :
    Container.info (Container.init
      [("bad", Val.obj none (some SizeAttr.callableNoToDict) none)]) =
      Except.error PyErr.attributeError ∧
    Container.info (Container.init
      [("c", Val.obj none (some SizeAttr.notCallable) (some 7))]) =
      Except.ok [("c", "object", "nan"), ("default_prefix", "str", "4"),
        ("meta", "NoneType", "nan")] :=
  ⟨rfl, rfl⟩

theorem lexLt_asymm : ∀ x y : List Char, lexLtB x y = true →
    lexLtB y x = false := by
  intro x
  induction x with
  | nil =>
    intro y h
    cases y with
    | nil => simp [lexLtB] at h
    | cons b bs => simp [lexLtB]
  | cons a as ih =>
    intro y h
    cases y with
    | nil => simp [lexLtB] at h
    | cons b bs =>
      unfold lexLtB at h ⊢
      by_cases hab : a < b
      · have h1 : ¬ b < a := lt_asymm hab
        have h2 : ¬ b = a := fun he => absurd hab (by rw [he]; exact lt_irrefl a)
        simp [h1, h2]
      · rw [if_neg hab] at h
        by_cases heq : a = b
        · rw [if_pos heq] at h
          subst heq
          simp [lt_irrefl, ih bs h]
        · rw [if_neg heq] at h
          exact absurd h (by simp)

theorem lexLt_trans : ∀ x y z : List Char, lexLtB x y = true →
    lexLtB y z = true → lexLtB x z = true := by
  intro x
  induction x with
  | nil =>
    intro y z hxy hyz
    cases y with
    | nil => simp [lexLtB] at hxy
    | cons b bs =>
      cases z with
      | nil => simp [lexLtB] at hyz
      | cons c cs => simp [lexLtB]
  | cons a as ih =>
    intro y z hxy hyz
    cases y with
    | nil => simp [lexLtB] at hxy
    | cons b bs =>
      cases z with
      | nil => simp [lexLtB] at hyz
      | cons c cs =>
        unfold lexLtB at hxy hyz ⊢
        by_cases hab : a < b
        · by_cases hbc : b < c
          · have : a < c := lt_trans hab hbc
            simp [this]
          · rw [if_neg hbc] at hyz
            by_cases hbc2 : b = c
            · subst hbc2
              simp [hab]
            · rw [if_neg hbc2] at hyz
              exact absurd hyz (by simp)
        · rw [if_neg hab] at hxy
          by_cases hab2 : a = b
          · subst hab2
            rw [if_pos rfl] at hxy
            by_cases hac : a < c
            · simp [hac]
            · by_cases haceq : a = c
              · subst haceq
                rw [if_neg hac, if_pos rfl] at hyz
                rw [if_neg hac, if_pos rfl]
                exact ih bs cs hxy hyz
              · rw [if_neg hac, if_neg haceq] at hyz
                exact absurd hyz (by simp)
          · rw [if_neg hab2] at hxy
            exact absurd hxy (by simp)

theorem lexLt_eq_of_not : ∀ x y : List Char, lexLtB x y = false →
    lexLtB y x = false → x = y := by
  intro x
  induction x with
  | nil =>
    intro y h1 h2
    cases y with
    | nil => rfl
    | cons b bs => simp [lexLtB] at h1
  | cons a as ih =>
    intro y h1 h2
    cases y with
    | nil => simp [lexLtB] at h2
    | cons b bs =>
      unfold lexLtB at h1 h2
      by_cases hab : a < b
      · rw [if_pos hab] at h1
        exact absurd h1 (by simp)
      · by_cases hba : b < a
        · rw [if_pos hba] at h2
          exact absurd h2 (by simp)
        · have heq : a = b := le_antisymm (le_of_not_lt hba) (le_of_not_lt hab)
          subst heq
          rw [if_neg hab, if_pos rfl] at h1
          rw [if_neg hba, if_pos rfl] at h2
          rw [ih bs h1 h2]

theorem strLtB_asymm {a b : String} (h : strLtB a b = true) :
    strLtB b a = false :=
  lexLt_asymm _ _ h

theorem strLtB_trans {a b c : String} (h1 : strLtB a b = true)
    (h2 : strLtB b c = true) : strLtB a c = true :=
  lexLt_trans _ _ _ h1 h2

theorem strEq_of_not_lt {a b : String} (h1 : strLtB a b = false)
    (h2 : strLtB b a = false) : a = b := by
  have h3 := lexLt_eq_of_not a.data b.data h1 h2
  cases a
  cases b
  exact congrArg String.mk h3

theorem strLeB_of_not_lt {a b : String} (h : strLtB b a = false) :
    strLeB a b = true := by
  unfold strLeB
  rw [h]
  rfl

theorem strLeB_of_lt {a b : String} (h : strLtB a b = true) :
    strLeB a b = true :=
  strLeB_of_not_lt (strLtB_asymm h)

theorem strLtB_false_of_leB {a b : String} (h : strLeB a b = true) :
    strLtB b a = false := by
  unfold strLeB at h
  cases hx : strLtB b a
  · rfl
  · rw [hx] at h
    exact absurd h (by decide)

theorem strLeB_trans {a b c : String} (h1 : strLeB a b = true)
    (h2 : strLeB b c = true) : strLeB a c = true := by
  have hba := strLtB_false_of_leB h1
  have hcb := strLtB_false_of_leB h2
  apply strLeB_of_not_lt
  cases hca : strLtB c a
  · rfl
  · exfalso
    by_cases hbc : strLtB b c = true
    · have h3 := strLtB_trans hbc hca
      rw [h3] at hba
      exact absurd hba (by decide)
    · have hbc2 : strLtB b c = false := by
        cases h4 : strLtB b c
        · rfl
        · exact absurd h4 hbc
      have he : b = c := strEq_of_not_lt hbc2 hcb
      subst he
      rw [hca] at hba
      exact absurd hba (by decide)

instance : IsTotal String strLe :=
  ⟨fun a b => by
    unfold strLe
    cases h : strLtB b a
    · exact Or.inl (strLeB_of_not_lt h)
    · exact Or.inr (strLeB_of_lt h)⟩

instance : IsTrans String strLe :=
  ⟨fun _ _ _ h1 h2 => strLeB_trans h1 h2⟩

instance : IsTotal (String × String) pairLe :=
  ⟨fun x y => by
    unfold pairLe
    by_cases h1 : strLtB x.1 y.1 = true
    · exact Or.inl (Or.inl h1)
    · by_cases h2 : strLtB y.1 x.1 = true
      · exact Or.inr (Or.inl h2)
      · have h1f : strLtB x.1 y.1 = false := by
          cases h : strLtB x.1 y.1
          · rfl
          · exact absurd h h1
        have h2f : strLtB y.1 x.1 = false := by
          cases h : strLtB y.1 x.1
          · rfl
          · exact absurd h h2
        have he : x.1 = y.1 := strEq_of_not_lt h1f h2f
        cases h3 : strLtB y.2 x.2
        · exact Or.inl (Or.inr ⟨he, strLeB_of_not_lt h3⟩)
        · exact Or.inr (Or.inr ⟨he.symm, strLeB_of_lt h3⟩)⟩

instance : IsTrans (String × String) pairLe :=
  ⟨fun x y z h1 h2 => by
    unfold pairLe at h1 h2 ⊢
    rcases h1 with h1 | ⟨he1, hle1⟩
    · rcases h2 with h2 | ⟨he2, hle2⟩
      · exact Or.inl (strLtB_trans h1 h2)
      · exact Or.inl (he2 ▸ h1)
    · rcases h2 with h2 | ⟨he2, hle2⟩
      · exact Or.inl (he1 ▸ h2)
      · exact Or.inr ⟨he1.trans he2, strLeB_trans hle1 hle2⟩⟩

theorem mem_keys_frameStep (nd : List (String × (Option String × List String)))
    (kv : String × Val) (m : String) :
    m ∈ dkeys (match kv.2 with
      | Val.frame i cols _ => dinsert nd kv.1 (i, cols)
      | Val.sparseFrame i cols _ => dinsert nd kv.1 (i, cols)
      | _ => nd) ↔
    (m ∈ dkeys nd ∨ (kv.1 = m ∧ isFrame kv.2 = true)) := by
  rcases kv with ⟨k, v⟩
  cases v <;> simp [isFrame, mem_dkeys_dinsert] <;> tauto

theorem mem_keys_frameNodes_go (l : List (String × Val)) :
    ∀ nd : List (String × (Option String × List String)), ∀ m,
    m ∈ dkeys (l.foldl
      (fun nd kv =>
        match kv.2 with
        | Val.frame i cols _ => dinsert nd kv.1 (i, cols)
        | Val.sparseFrame i cols _ => dinsert nd kv.1 (i, cols)
        | _ => nd) nd) ↔
    (m ∈ dkeys nd ∨ ∃ kv ∈ l, kv.1 = m ∧ isFrame kv.2 = true) := by
  induction l with
  | nil => intro nd m; simp
  | cons kv rest ih =>
    intro nd m
    rw [List.foldl_cons, ih]
    rw [mem_keys_frameStep]
    constructor
    · rintro ((h | h) | h)
      · exact Or.inl h
      · exact Or.inr ⟨kv, List.mem_cons_self _ _, h⟩
      · rcases h with ⟨kv2, hkv2, h2⟩
        exact Or.inr ⟨kv2, List.mem_cons_of_mem _ hkv2, h2⟩
    · rintro (h | h)
      · exact Or.inl (Or.inl h)
      · rcases h with ⟨kv2, hkv2, h2⟩
        rcases List.mem_cons.mp hkv2 with h3 | h3
        · subst h3
          exact Or.inl (Or.inr h2)
        · exact Or.inr ⟨kv2, h3, h2⟩

theorem mem_keys_frameNodes (c : Container) (m : String) :
    m ∈ dkeys (frameNodes c) ↔
      ∃ kv ∈ c.items, kv.1 = m ∧ isFrame kv.2 = true := by
  unfold frameNodes
  rw [mem_keys_frameNodes_go]
  simp [dkeys]

theorem mem_inner_fold (p0 : String × (Option String × List String))
    (l : List (String × (Option String × List String))) :
    ∀ es : List (String × String), ∀ e,
    e ∈ l.foldl
      (fun es p1 =>
        if p0.1 = p1.1 then es
        else if relatedB p0.2 p1.2 then
          if es.contains (pairOf p0.1 p1.1) then es
          else es ++ [pairOf p0.1 p1.1]
        else es) es ↔
    (e ∈ es ∨ ∃ p1 ∈ l, p0.1 ≠ p1.1 ∧ relatedB p0.2 p1.2 = true ∧
      e = pairOf p0.1 p1.1) := by
  induction l with
  | nil => intro es e; simp
  | cons p1 rest ih =>
    intro es e
    rw [List.foldl_cons]
    by_cases h1 : p0.1 = p1.1
    · rw [if_pos h1, ih]
      constructor
      · rintro (h | h)
        · exact Or.inl h
        · rcases h with ⟨p2, hp2, h2⟩
          exact Or.inr ⟨p2, List.mem_cons_of_mem _ hp2, h2⟩
      · rintro (h | h)
        · exact Or.inl h
        · rcases h with ⟨p2, hp2, h2⟩
          rcases List.mem_cons.mp hp2 with h3 | h3
          · subst h3
            exact absurd h1 h2.1
          · exact Or.inr ⟨p2, h3, h2⟩
    · rw [if_neg h1]
      by_cases h2 : relatedB p0.2 p1.2 = true
      · rw [if_pos h2, ih]
        have hmm : ∀ x, x ∈ (if es.contains (pairOf p0.1 p1.1) then es
            else es ++ [pairOf p0.1 p1.1]) ↔
            (x ∈ es ∨ x = pairOf p0.1 p1.1) := by
          intro x
          by_cases hc : es.contains (pairOf p0.1 p1.1) = true
          · rw [if_pos hc]
            constructor
            · exact Or.inl
            · rintro (h | h)
              · exact h
              · subst h
                exact List.elem_iff.mp hc
          · rw [if_neg hc]
            simp
        constructor
        · rintro (h | h)
          · rcases (hmm e).mp h with h3 | h3
            · exact Or.inl h3
            · exact Or.inr ⟨p1, List.mem_cons_self _ _, h1, h2, h3⟩
          · rcases h with ⟨p2, hp2, h3⟩
            exact Or.inr ⟨p2, List.mem_cons_of_mem _ hp2, h3⟩
        · rintro (h | h)
          · exact Or.inl ((hmm e).mpr (Or.inl h))
          · rcases h with ⟨p2, hp2, h3⟩
            rcases List.mem_cons.mp hp2 with h4 | h4
            · subst h4
              exact Or.inl ((hmm e).mpr (Or.inr h3.2.2))
            · exact Or.inr ⟨p2, h4, h3⟩
      · rw [if_neg h2, ih]
        constructor
        · rintro (h | h)
          · exact Or.inl h
          · rcases h with ⟨p2, hp2, h3⟩
            exact Or.inr ⟨p2, List.mem_cons_of_mem _ hp2, h3⟩
        · rintro (h | h)
          · exact Or.inl h
          · rcases h with ⟨p2, hp2, h3⟩
            rcases List.mem_cons.mp hp2 with h4 | h4
            · subst h4
              exact absurd h3.2.1 (by simp [h2])
            · exact Or.inr ⟨p2, h4, h3⟩

theorem mem_buildEdges (nodes : List (String × (Option String × List String)))
    (e : String × String) :
    e ∈ buildEdges nodes ↔
      ∃ p0 ∈ nodes, ∃ p1 ∈ nodes, p0.1 ≠ p1.1 ∧
        relatedB p0.2 p1.2 = true ∧ e = pairOf p0.1 p1.1 := by
  unfold buildEdges
  have hgen : ∀ l : List (String × (Option String × List String)),
      ∀ es : List (String × String),
      e ∈ l.foldl
        (fun es p0 =>
          nodes.foldl
            (fun es p1 =>
              if p0.1 = p1.1 then es
              else if relatedB p0.2 p1.2 then
                if es.contains (pairOf p0.1 p1.1) then es
                else es ++ [pairOf p0.1 p1.1]
              else es) es) es ↔
      (e ∈ es ∨ ∃ p0 ∈ l, ∃ p1 ∈ nodes, p0.1 ≠ p1.1 ∧
        relatedB p0.2 p1.2 = true ∧ e = pairOf p0.1 p1.1) := by
    intro l
    induction l with
    | nil => intro es; simp
    | cons p0 rest ih =>
      intro es
      rw [List.foldl_cons, ih, mem_inner_fold]
      constructor
      · rintro ((h | h) | h)
        · exact Or.inl h
        · rcases h with ⟨p1, hp1, h2⟩
          exact Or.inr ⟨p0, List.mem_cons_self _ _, p1, hp1, h2⟩
        · rcases h with ⟨p2, hp2, h2⟩
          exact Or.inr ⟨p2, List.mem_cons_of_mem _ hp2, h2⟩
      · rintro (h | h)
        · exact Or.inl (Or.inl h)
        · rcases h with ⟨p2, hp2, h2⟩
          rcases List.mem_cons.mp hp2 with h3 | h3
          · subst h3
            exact Or.inl (Or.inr h2)
          · exact Or.inr ⟨p2, h3, h2⟩
  rw [hgen nodes []]
  simp

theorem nodup_inner_fold (p0 : String × (Option String × List String))
    (l : List (String × (Option String × List String))) :
    ∀ es : List (String × String), es.Nodup →
    (l.foldl
      (fun es p1 =>
        if p0.1 = p1.1 then es
        else if relatedB p0.2 p1.2 then
          if es.contains (pairOf p0.1 p1.1) then es
          else es ++ [pairOf p0.1 p1.1]
        else es) es).Nodup := by
  induction l with
  | nil => intro es h; exact h
  | cons p1 rest ih =>
    intro es h
    rw [List.foldl_cons]
    apply ih
    by_cases h1 : p0.1 = p1.1
    · rw [if_pos h1]
      exact h
    · rw [if_neg h1]
      by_cases h2 : relatedB p0.2 p1.2 = true
      · rw [if_pos h2]
        by_cases hc : es.contains (pairOf p0.1 p1.1) = true
        · rw [if_pos hc]
          exact h
        · rw [if_neg hc]
          refine List.Nodup.append h (List.nodup_singleton _) ?_
          intro a ha hb
          have : a = pairOf p0.1 p1.1 := List.mem_singleton.mp hb
          subst this
          exact hc (List.elem_iff.mpr ha)
      · rw [if_neg h2]
        exact h

theorem nodup_buildEdges
    (nodes : List (String × (Option String × List String))) :
    (buildEdges nodes).Nodup := by
  unfold buildEdges
  have hgen : ∀ l : List (String × (Option String × List String)),
      ∀ es : List (String × String), es.Nodup →
      (l.foldl
        (fun es p0 =>
          nodes.foldl
            (fun es p1 =>
              if p0.1 = p1.1 then es
              else if relatedB p0.2 p1.2 then
                if es.contains (pairOf p0.1 p1.1) then es
                else es ++ [pairOf p0.1 p1.1]
              else es) es) es).Nodup := by
    intro l
    induction l with
    | nil => intro es h; exact h
    | cons p0 rest ih =>
      intro es h
      rw [List.foldl_cons]
      exact ih _ (nodup_inner_fold p0 nodes es h)
  exact hgen nodes [] List.nodup_nil

theorem pairOf_fst_ne_snd {a b : String} (h : a ≠ b) :
    (pairOf a b).1 ≠ (pairOf a b).2 := by
  unfold pairOf
  by_cases hle : strLeB a b = true
  · rw [if_pos hle]
    exact h
  · rw [if_neg hle]
    exact fun he => h he.symm

/-- C4: `_network` infers relationships by exact label matching.  The node
list is the sorted list of the names of the `DataFrame` items; an edge is
present exactly when two distinct frame nodes satisfy the edge condition,
which unfolds to: one frame's (non-`None`) row-index name occurs among the
other frame's column labels; no node forms an edge with itself; the edge
list is duplicate-free (each qualifying unordered pair contributes exactly
one sorted 2-tuple) and sorted. -/
theorem C4_network_inference (c : Container) :
    (∀ m, m ∈ (c.network).1 ↔
      ∃ kv ∈ c.items, kv.1 = m ∧ isFrame kv.2 = true) ∧
    List.Sorted strLe (c.network).1 ∧
    (∀ e, e ∈ (c.network).2 ↔
      ∃ p0 ∈ frameNodes c, ∃ p1 ∈ frameNodes c, p0.1 ≠ p1.1 ∧
        relatedB p0.2 p1.2 = true ∧ e = pairOf p0.1 p1.1) ∧
    (∀ i0 c0 i1 c1, relatedB (i0, c0) (i1, c1) = true ↔
      ((∃ s, i0 = some s ∧ s ∈ c1) ∨ (∃ s, i1 = some s ∧ s ∈ c0))) ∧
    (∀ a, (a, a) ∉ (c.network).2) ∧
    (c.network).2.Nodup ∧
    List.Sorted pairLe (c.network).2 := by
  have e1 : (c.network).1 =
      List.insertionSort strLe (dkeys (frameNodes c)) := rfl
  have e2 : (c.network).2 =
      List.insertionSort pairLe (buildEdges (frameNodes c)) := rfl
  have hedges : ∀ e, e ∈ (c.network).2 ↔
      ∃ p0 ∈ frameNodes c, ∃ p1 ∈ frameNodes c, p0.1 ≠ p1.1 ∧
        relatedB p0.2 p1.2 = true ∧ e = pairOf p0.1 p1.1 := by
    intro e
    rw [e2, (List.perm_insertionSort pairLe _).mem_iff, mem_buildEdges]
  refine ⟨?_, ?_, hedges, ?_, ?_, ?_, ?_⟩
  · intro m
    rw [e1, (List.perm_insertionSort strLe _).mem_iff]
    exact mem_keys_frameNodes c m
  · rw [e1]
    exact List.sorted_insertionSort strLe _
  · intro i0 c0 i1 c1
    cases i0 <;> cases i1 <;>
      simp [relatedB, List.elem_iff]
  · intro a ha
    rcases (hedges (a, a)).mp ha with ⟨p0, _, p1, _, hne, _, hpair⟩
    have hcomp := pairOf_fst_ne_snd hne
    rw [← hpair] at hcomp
    exact hcomp rfl
  · rw [e2]
    exact ((List.perm_insertionSort pairLe _).nodup_iff).mpr
      (nodup_buildEdges _)
  · rw [e2]
    exact List.sorted_insertionSort pairLe _

/-- C5 (counterexample): a table `df` with row-index name `a` and a table
`t2` whose columns include `a1` get no edge at all — `_network` matches
labels exactly, so the numeral-suffixed variant `a1` does not relate to the
index `a` and the claimed single edge does not exist. -/
theorem C5_counterexample :
    (Container.init
      [("df", Val.frame (some "a") ["b"] []),
       ("t2", Val.frame (some "z") ["a1"] [])]).network =
      (["df", "t2"], []) ∧
    ("df", "t2") ∉ ((Container.init
      [("df", Val.frame (some "a") ["b"] []),
       ("t2", Val.frame (some "z") ["a1"] [])]).network).2 := by
  decide

/-- C5 (amended): `_network` connects two tables only on an exact
index-name/column-label match: whenever no two distinct frame nodes satisfy
the (exact-equality) edge condition — numeral-suffixed near-matches such as
index `a` against column `a1` in particular do not satisfy it — the inferred
edge list is empty. -/
theorem C5_exact_match_required (c : Container)
    (h : ∀ p0 ∈ frameNodes c, ∀ p1 ∈ frameNodes c, p0.1 ≠ p1.1 →
      relatedB p0.2 p1.2 = false) :
    (c.network).2 = [] := by
  have e2 : (c.network).2 =
      List.insertionSort pairLe (buildEdges (frameNodes c)) := rfl
  rw [e2]
  have hb : buildEdges (frameNodes c) = [] := by
    rw [List.eq_nil_iff_forall_not_mem]
    intro e he
    rcases (mem_buildEdges _ e).mp he with ⟨p0, hp0, p1, hp1, hne, hrel, _⟩
    rw [h p0 hp0 p1 hp1 hne] at hrel
    exact absurd hrel (by decide)
  rw [hb]
  rfl

/-- C5 (witness): the amended exact-match law applied to the concrete
suffix-only pair (index `a` vs column `a1`). -/
theorem C5_exact_match_required_witness :
    ((Container.init
      [("df", Val.frame (some "a") ["b"] []),
       ("t2", Val.frame (some "z") ["a1"] [])]).network).2 = [] :=
  C5_exact_match_required
    (Container.init
      [("df", Val.frame (some "a") ["b"] []),
       ("t2", Val.frame (some "z") ["a1"] [])])
    (by decide)

/-- C4 (witness): the network law instantiated at a concrete two-frame
container: frame `a1` (index `y`, columns `x`) and frame `a2` (index `x`,
columns `u`) are related by the exact match of index `x` with column `x`,
giving the single sorted edge `(a1, a2)`. -/
theorem C4_network_inference_witness :
    ("a1", "a2") ∈ ((Container.init
      [("a2", Val.frame (some "x") ["u"] []),
       ("a1", Val.frame (some "y") ["x"] [])]).network).2 ∧
    ((Container.init
      [("a2", Val.frame (some "x") ["u"] []),
       ("a1", Val.frame (some "y") ["x"] [])]).network).1 = ["a1", "a2"] :=
  ⟨((C4_network_inference (Container.init
      [("a2", Val.frame (some "x") ["u"] []),
       ("a1", Val.frame (some "y") ["x"] [])])).2.2.1 ("a1", "a2")).mpr
    ⟨("a2", (some "x", ["u"])), by decide,
     ("a1", (some "y", ["x"])), by decide, by decide, by decide, by decide⟩,
   by decide⟩
